import Mathlib

/-!
# EasyDB: a shallow embedding of the in-memory store, index manager and query engine

This file models the Go sources of the EasyDB repository:

* `core/ds/trie.go`         — the prefix trie (`Trie.Insert/Delete/QueryPrefix`)
* `util` (`SafeToString`, `Compare`) — value coercion and ordering
* `core/storage/index.go`   — `IndexManager` (exact / prefix / substring indexes)
* `core/storage/store.go`   — `Store` (insert / get / update / delete / list)
* `api/query.go`            — the query engine (`executeQuery`, `applyPagination`,
  `processContainCondition`, …)

Modelling conventions:

* Go maps that the source only reads, writes and deletes pointwise (the exact
  and inverted bucket maps, `idMapIndex`, `aliveIndexSet`) are modelled as
  functions into `Option`; `none` is the Go "key absent" (`!ok`) case.  Maps
  the source iterates (`IndexManager.indexes`, trie children) are modelled as
  association lists; their iteration order never influences any stated
  property.
* Go strings are modelled as `List Char` (Unicode code points).  The trie in
  the source iterates runes; the substring windows iterate bytes, and
  byte-wise lexicographic order of UTF-8 agrees with code-point order.
* Dynamically typed Go `interface{}` field values are modelled by the closed
  variant `Value` covering the kinds the source's `reflect` switches handle:
  signed integers, unsigned integers, strings and booleans, plus `vOther` for
  any value of an unsupported kind.  Floating-point kinds are outside the
  model.
* A Go `panic` is modelled as `Option.none` / a dedicated error value.
* The identifier generator is an `atomic.Uint64`; it is modelled as `Nat`
  without wrap-around because each insert also appends a record to the backing
  table, so the counter cannot reach `2^64` in any execution that fits in
  memory.
* Go extractors have type `func(*Record[T]) interface{}`; every extractor in
  the repository reads only the record payload (`r.Data.…`), so the model
  types extractors as functions on the payload value.
-/

namespace EasyDB

/-! ## Values (`interface{}` field values) -/

/-- A dynamically-typed Go value, restricted to the kinds the source's
`reflect` switches distinguish.  `vOther` stands for any value of a kind
unsupported by `util.SafeToString` and `util.Compare`. -/
inductive Value where
  | vInt  (n : Int)    -- the signed integer kinds
  | vUInt (n : Nat)    -- the unsigned integer kinds
  | vStr  (s : List Char)
  | vBool (b : Bool)
  | vOther
  deriving DecidableEq, Repr

/-- `util.SafeToString`: canonical string form of a value, or an error for
unsupported kinds (modelled as `none`). -/
def safeToString : Value → Option (List Char)
  | .vInt n  => some (toString n).toList
  | .vUInt n => some (toString n).toList
  | .vStr s  => some s
  | .vBool b => some (if b then "true".toList else "false".toList)
  | .vOther  => none

/-- Code-point lexicographic three-way comparison, as Go's `strings.Compare`
(which compares UTF-8 bytes; byte order and code-point order agree). -/
def strCompare : List Char → List Char → Int
  | [], [] => 0
  | [], _ :: _ => -1
  | _ :: _, [] => 1
  | a :: as, b :: bs =>
    if a < b then -1 else if b < a then 1 else strCompare as bs

/-- `reflect.Value.String()`: the string itself on a string kind; on every
other kind it does *not* panic (unlike the `Int`/`Uint` getters) and returns
the placeholder `"<T Value>"`, `T` being the dynamic type's printed name.
`Value` collapses each family of Go kinds into one constructor, so the model
fixes one representative type name per constructor (a concrete Go value may
print e.g. `"<int8 Value>"` instead of `"<int Value>"`); no theorem below
depends on this text beyond its existence. -/
def reflectString : Value → List Char
  | .vStr s  => s
  | .vInt _  => "<int Value>".toList
  | .vUInt _ => "<uint64 Value>".toList
  | .vBool _ => "<bool Value>".toList
  | .vOther  => "<T Value>".toList

/-- `util.Compare`: three-way comparison switching on the *first* argument's
reflection kind.  In the `Int` and `Uint` branches the getter on the second
argument panics (modelled `none`) when its kind differs; a first-argument
kind outside the switch — booleans included — falls through to the
`panic("unsupported type for compare")` default.  The `String` branch never
panics: it returns `strings.Compare(va.String(), vb.String())`, and
`reflect.Value.String()` on a non-string second argument yields the
`"<T Value>"` placeholder (see `reflectString`). -/
def compare : Value → Value → Option Int
  | .vInt a, .vInt b => some (if a < b then -1 else if b < a then 1 else 0)
  | .vInt _, _ => none
  | .vUInt a, .vUInt b => some (if a < b then -1 else if b < a then 1 else 0)
  | .vUInt _, _ => none
  | .vStr a, b => some (strCompare a (reflectString b))
  | _, _ => none

/-! ## Association lists (iterated Go maps) -/

/-- Lookup in an association list (a Go map read `m[k]`). -/
def alookup {κ α : Type} [DecidableEq κ] : List (κ × α) → κ → Option α
  | [], _ => none
  | (k', a) :: rest, k => if k = k' then some a else alookup rest k

/-- Insert-or-replace in an association list (a Go map write `m[k] = a`). -/
def aupd {κ α : Type} [DecidableEq κ] : List (κ × α) → κ → α → List (κ × α)
  | [], k, a => [(k, a)]
  | (k', a') :: rest, k, a =>
    if k = k' then (k, a) :: rest else (k', a') :: aupd rest k a

/-! ## Bucket maps (value → identifier set)

The exact index and the substring inverted index are Go maps from a key to a
set of `uint64` identifiers.  The source never iterates them, so they are
modelled as functions; the identifier sets are `List Nat` with set semantics
(duplicate-free by construction of the operations). -/

/-- A Go `map[κ]map[uint64]struct{}`: `none` means the key is absent. -/
def Buckets (κ : Type) : Type := κ → Option (List Nat)

/-- The empty bucket map (`make(map[κ]map[uint64]struct{})`). -/
def bEmpty {κ : Type} : Buckets κ := fun _ => none

/-- The identifier set found at a key, reading an absent bucket as empty. -/
def getB {κ : Type} (m : Buckets κ) (k : κ) : List Nat := (m k).getD []

/-- Add an identifier to a Go identifier set (`idSet[id] = struct{}{}`). -/
def setInsert (l : List Nat) (id : Nat) : List Nat :=
  if id ∈ l then l else l ++ [id]

/-- Remove an identifier from a Go identifier set (`delete(idSet, id)`). -/
def setRemove (l : List Nat) (id : Nat) : List Nat :=
  l.filter (· ≠ id)

/-- Add `id` to the bucket of `k`, creating the bucket when absent — as in
`AddIndexByRecord`: `if _, ok := m[val]; !ok { m[val] = make(...) };
m[val][id] = struct{}{}`. -/
def bAdd {κ : Type} [DecidableEq κ] (m : Buckets κ) (k : κ) (id : Nat) : Buckets κ :=
  fun k' => if k' = k then some (setInsert (getB m k) id) else m k'

/-- Remove `id` from the bucket of `k` when that bucket exists, deleting the
bucket when it becomes empty — as in `RemoveIndexByRecord`:
`if idSet, ok := m[val]; ok { delete(idSet, id); if len(idSet) == 0 {
delete(m, val) } }`. -/
def bRemove {κ : Type} [DecidableEq κ] (m : Buckets κ) (k : κ) (id : Nat) : Buckets κ :=
  match m k with
  | none => m
  | some bucket =>
    fun k' => if k' = k then
        (if setRemove bucket id = [] then none else some (setRemove bucket id))
      else m k'

/-! ## The prefix trie (`core/ds/trie.go`) -/

/-- A trie node: children keyed by a character, plus the identifier set of all
keys passing through this node (`trieNode` in the source). -/
inductive TrieNode where
  | mk (children : List (Char × TrieNode)) (ids : List Nat)

/-- The children map of a node. -/
def TrieNode.children : TrieNode → List (Char × TrieNode)
  | .mk c _ => c

/-- The identifier set of a node. -/
def TrieNode.ids : TrieNode → List Nat
  | .mk _ i => i

/-- A fresh node, as allocated by `NewTrie` and by `Insert` for missing
children. -/
def emptyNode : TrieNode := .mk [] []

/-- `node.children[r]` (with the `ok` flag as `Option`). -/
def childOf (t : TrieNode) (c : Char) : Option TrieNode :=
  alookup t.children c

/-- `node.children[r] = n`. -/
def setChild (t : TrieNode) (c : Char) (n : TrieNode) : TrieNode :=
  .mk (aupd t.children c n) t.ids

/-- `node.ids[id] = struct{}{}`. -/
def addId (t : TrieNode) (id : Nat) : TrieNode :=
  .mk t.children (setInsert t.ids id)

/-- `delete(node.ids, id)`. -/
def removeId (t : TrieNode) (id : Nat) : TrieNode :=
  .mk t.children (setRemove t.ids id)

/-- `Trie.Insert`: walk (creating missing nodes) one node per character of
the key, recording the identifier in every visited child node's set.  The
root's own set is never touched. -/
def trieInsert : TrieNode → List Char → Nat → TrieNode
  | t, [], _ => t
  | t, c :: k, id =>
    setChild t c (trieInsert (addId ((childOf t c).getD emptyNode) id) k id)

/-- `Trie.Delete`: walk existing nodes along the key, removing the identifier
from each visited child node's set; stop silently at the first missing
child. -/
def trieDelete : TrieNode → List Char → Nat → TrieNode
  | t, [], _ => t
  | t, c :: k, id =>
    match childOf t c with
    | none => t
    | some child => setChild t c (trieDelete (removeId child id) k id)

/-- `Trie.QueryPrefix`: walk the prefix; `none` models the `nil` returned when
the path does not exist, `some` the terminal node's identifier set. -/
def queryPrefix : TrieNode → List Char → Option (List Nat)
  | t, [] => some t.ids
  | t, c :: p =>
    match childOf t c with
    | none => none
    | some child => queryPrefix child p

/-- The identifier set observable at a path, reading a missing path as empty. -/
def idsAt (t : TrieNode) (p : List Char) : List Nat :=
  (queryPrefix t p).getD []


/-! ## Substring windows -/

/-- All nonempty contiguous substring windows of a value, as enumerated by the
double loop `for i := 0; i <= len(val)-1; i++ { for j := i+1; j <= len(val);
j++ { sub := val[i:j] … } }` in `AddIndexByRecord` / `RemoveIndexByRecord`. -/
def windows (s : List Char) : List (List Char) :=
  (List.range s.length).flatMap fun i =>
    (List.range (s.length - i)).map fun d => (s.drop i).take (d + 1)

/-- The `IndexType` constants. -/
inductive IndexType where
  | indexExact
  | indexPrefix
  | indexSubstring
  deriving DecidableEq, Repr

/-- A field's index structures (`FieldIndex`): `none` models a nil
(unregistered) structure. -/
structure FieldIndex where
  extractor : Value → Value
  exact : Option (Buckets Value)
  trie : Option TrieNode
  inverted : Option (Buckets (List Char))

/-- `IndexManager.indexes`: field name → index structures, as an association
list because `AddIndexByRecord` / `RemoveIndexByRecord` iterate it.  The
`fieldTypes` map receives one entry per registered field (always the static
`interface{}` type of the extractor result), so its key set coincides with
this list's key set and it needs no separate model. -/
def IndexManager : Type := List (String × FieldIndex)

/-- `Register(field, extractor, types...)`: allocate only the requested
structures and install (or replace) the field entry. -/
def imRegister (im : IndexManager) (field : String) (ex : Value → Value)
    (kinds : List IndexType) : IndexManager :=
  aupd im field
    { extractor := ex
      exact := if IndexType.indexExact ∈ kinds then some bEmpty else none
      trie := if IndexType.indexPrefix ∈ kinds then some emptyNode else none
      inverted := if IndexType.indexSubstring ∈ kinds then some bEmpty else none }

/-- Per-field part of `AddIndexByRecord`: extract the value and insert it into
every active structure; a value that fails string coercion skips the trie and
inverted structures (non-fatal), while the exact index stores the raw value. -/
def fiAdd (fi : FieldIndex) (d : Value) (id : Nat) : FieldIndex :=
  { fi with
    exact := fi.exact.map fun m => bAdd m (fi.extractor d) id
    trie := fi.trie.map fun t =>
      match safeToString (fi.extractor d) with
      | none => t
      | some cs => trieInsert t cs id
    inverted := fi.inverted.map fun m =>
      match safeToString (fi.extractor d) with
      | none => m
      | some cs => (windows cs).foldl (fun m' w => bAdd m' w id) m }

/-- Per-field part of `RemoveIndexByRecord` (the mirror of `fiAdd`). -/
def fiRemove (fi : FieldIndex) (d : Value) (id : Nat) : FieldIndex :=
  { fi with
    exact := fi.exact.map fun m => bRemove m (fi.extractor d) id
    trie := fi.trie.map fun t =>
      match safeToString (fi.extractor d) with
      | none => t
      | some cs => trieDelete t cs id
    inverted := fi.inverted.map fun m =>
      match safeToString (fi.extractor d) with
      | none => m
      | some cs => (windows cs).foldl (fun m' w => bRemove m' w id) m }

/-- `AddIndexByRecord`: run the per-field insertion for every registered
field, with the record's payload and identifier. -/
def imAdd (im : IndexManager) (d : Value) (id : Nat) : IndexManager :=
  im.map fun e => (e.1, fiAdd e.2 d id)

/-- `RemoveIndexByRecord`. -/
def imRemove (im : IndexManager) (d : Value) (id : Nat) : IndexManager :=
  im.map fun e => (e.1, fiRemove e.2 d id)

/-- `UpdateIndexByRecord(old, new)` = `RemoveIndexByRecord(old)` followed by
`AddIndexByRecord(new)`. -/
def imUpdate (im : IndexManager) (dOld dNew : Value) (id : Nat) : IndexManager :=
  imAdd (imRemove im dOld id) dNew id

/-- `IndexManager.QueryPrefix`: `nil` (`none`) when the field or its trie is
unregistered, otherwise the trie lookup (itself `nil` for a missing path). -/
def imQueryPrefix (im : IndexManager) (field : String) (p : List Char) : Option (List Nat) :=
  match alookup im field with
  | some fi =>
    match fi.trie with
    | some t => queryPrefix t p
    | none => none
  | none => none

/-- `IndexManager.QuerySubstring`: the inverted-index bucket, `nil` (`none`)
when the field, the structure or the bucket is absent. -/
def imQuerySubstring (im : IndexManager) (field : String) (w : List Char) : Option (List Nat) :=
  match alookup im field with
  | some fi =>
    match fi.inverted with
    | some m => m w
    | none => none
  | none => none

/-- The inverted-index step of `IndexManager.Query` (its final `if` block). -/
def imQueryInverted (fi : FieldIndex) (keyword : Value) : Option (List Nat) :=
  match fi.inverted with
  | some m =>
    match safeToString keyword with
    | none => none
    | some cs => m cs
  | none => none

/-- `IndexManager.Query`: exact bucket first, then the trie (where a coercion
failure aborts the whole query with `nil`), then the inverted bucket. -/
def imQuery (im : IndexManager) (field : String) (keyword : Value) : Option (List Nat) :=
  match alookup im field with
  | none => none
  | some fi =>
    match (match fi.exact with | some m => m keyword | none => none) with
    | some set => some set
    | none =>
      match fi.trie with
      | some t =>
        match safeToString keyword with
        | none => none
        | some cs =>
          match queryPrefix t cs with
          | some set => some set
          | none => imQueryInverted fi keyword
      | none => imQueryInverted fi keyword

/-! ## The record store (`Store` from the storage package) -/

/-- A record (`types.Record` with its `RecordMeta` flattened in). -/
structure Record where
  id : Nat
  data : Value
  version : Nat
  createdAt : Int
  updatedAt : Int
  deleted : Bool
  deriving DecidableEq, Repr

/-- `storage.Store`: backing table, identifier generator, id→slot map,
liveness sequence and set, index manager, and the versioning option.
`InitialCapacity` only pre-sizes a Go slice allocation and has no observable
effect, so it is not modelled. -/
structure Store where
  data : List Record
  idGen : Nat
  idMapIndex : Nat → Option Nat
  aliveIndexes : List Nat
  aliveIndexSet : Nat → Bool
  im : IndexManager
  enableVersioning : Bool

/-- The store's sentinel errors (`errors.ErrNotFound`,
`errors.ErrRecordDeleted`). -/
inductive StoreErr where
  | notFound
  | recordDeleted
  deriving DecidableEq, Repr

/-- `storage.New`: an empty store with the configured field indexes
registered. -/
def mkStore (versioning : Bool)
    (cfgs : List (String × (Value → Value) × List IndexType)) : Store :=
  { data := []
    idGen := 0
    idMapIndex := fun _ => none
    aliveIndexes := []
    aliveIndexSet := fun _ => false
    im := cfgs.foldl (fun im c => imRegister im c.1 c.2.1 c.2.2) []
    enableVersioning := versioning }

/-- `addAliveIndex` (called by `Insert`). -/
def addAliveIndex (s : Store) (idx : Nat) : Store :=
  { s with
    aliveIndexes := s.aliveIndexes ++ [idx]
    aliveIndexSet := fun i => if i = idx then true else s.aliveIndexSet i }

/-- `removeAliveIndex` (called by `Delete`): removes the first occurrence from
the sequence. -/
def removeAliveIndex (s : Store) (idx : Nat) : Store :=
  { s with
    aliveIndexes := s.aliveIndexes.erase idx
    aliveIndexSet := fun i => if i = idx then false else s.aliveIndexSet i }

/-- `Store.Insert`: allocate the next identifier, stamp the metadata, append
to the backing table, record the slot, mark it live and index the record.
`now` stands for `time.Now().UnixNano()`.  Always succeeds. -/
def storeInsert (s : Store) (d : Value) (now : Int) : Record × Store :=
  let id := s.idGen + 1
  let record : Record :=
    { id := id, data := d, version := 1, createdAt := now, updatedAt := now, deleted := false }
  let index := s.data.length
  let s1 : Store :=
    { s with
      data := s.data ++ [record]
      idGen := id
      idMapIndex := fun i => if i = id then some index else s.idMapIndex i }
  let s2 := addAliveIndex s1 index
  (record, { s2 with im := imAdd s2.im d id })

/-- `Store.Get`: `ErrNotFound` both when the identifier is unknown **and**
when the record is tombstoned (the source folds the two cases into one
branch).  A slot outside the table (impossible for stores built by the
exported operations) is folded into the not-found branch as well. -/
def storeGet (s : Store) (id : Nat) : Except StoreErr Record :=
  match s.idMapIndex id with
  | none => .error .notFound
  | some idx =>
    match s.data[idx]? with
    | none => .error .notFound
    | some r => if r.deleted then .error .notFound else .ok r

/-- `Store.Update`: replace the payload, stamp `updatedAt`, bump the version
only under versioning, and re-index from the pre-update snapshot. -/
def storeUpdate (s : Store) (id : Nat) (d : Value) (now : Int) :
    Except StoreErr (Record × Store) :=
  match s.idMapIndex id with
  | none => .error .notFound
  | some idx =>
    match s.data[idx]? with
    | none => .error .notFound
    | some r =>
      if r.deleted then .error .recordDeleted
      else
        let r' : Record :=
          { r with
            data := d
            updatedAt := now
            version := if s.enableVersioning then r.version + 1 else r.version }
        .ok (r', { s with data := s.data.set idx r', im := imUpdate s.im r.data d r.id })

/-- `Store.Delete`: tombstone the record, drop its slot from the liveness
bookkeeping and de-index it. -/
def storeDelete (s : Store) (id : Nat) (now : Int) : Except StoreErr Store :=
  match s.idMapIndex id with
  | none => .error .notFound
  | some idx =>
    match s.data[idx]? with
    | none => .error .notFound
    | some r =>
      if r.deleted then .error .recordDeleted
      else
        let r' : Record := { r with deleted := true, updatedAt := now }
        let s2 := removeAliveIndex { s with data := s.data.set idx r' } idx
        .ok { s2 with im := imRemove s2.im r.data r.id }

/-- The record-collection loop of `Store.List`: read each slot (`none` models
the panic on an out-of-range slot) and keep the non-tombstoned records, in
order. -/
def collectRecs (data : List Record) : List Nat → Option (List Record)
  | [] => some []
  | i :: is =>
    match data[i]? with
    | none => none
    | some r =>
      match collectRecs data is with
      | none => none
      | some rest => some (if r.deleted then rest else r :: rest)

/-- `Store.List`: an early empty page when `offset ≥ total`, otherwise the
clamped slice of the liveness sequence.  `none` models the runtime panic of
`make` / slicing for a negative offset or a negative remaining capacity —
the source never validates the bounds. -/
def storeList (s : Store) (offset limit : Int) : Option (List Record × Nat) :=
  let total : Int := s.aliveIndexes.length
  if offset ≥ total then some ([], s.aliveIndexes.length)
  else
    let e := offset + limit
    let e' := if e > total then total else e
    if offset < 0 ∨ e' < offset then none
    else
      match collectRecs s.data ((s.aliveIndexes.drop offset.toNat).take (e' - offset).toNat) with
      | none => none
      | some recs => some (recs, s.aliveIndexes.length)

/-! ## The query engine (`api/query.go`) -/

/-- The query-engine failures (the `fmt.Errorf` returns of `api/query.go`);
`panicked` models the process-killing `util.Compare` panic reachable from
range conditions. -/
inductive QErr where
  | fieldNotIndexed
  | notStringCoercible
  | unsupportedIndexForField
  | noIndexForField
  | noInMatch
  | unsupportedOperator
  | invalidInput
  | panicked
  deriving DecidableEq, Repr

/-- A query condition (`queryCondition`), with the payload shapes the fluent
builder produces (`Contains` takes a Go `string`; `Between` always packs
exactly `[start, end]`). -/
inductive Cond where
  | eqC (field : String) (v : Value)
  | containsC (field : String) (s : List Char)
  | inC (field : String) (vs : List Value)
  | betweenC (field : String) (lo hi : Value)
  | gtC (field : String) (v : Value)
  | gteC (field : String) (v : Value)
  | ltC (field : String) (v : Value)
  | lteC (field : String) (v : Value)

/-- The field a condition targets. -/
def Cond.condField : Cond → String
  | .eqC f _ => f
  | .containsC f _ => f
  | .inC f _ => f
  | .betweenC f _ _ => f
  | .gtC f _ => f
  | .gteC f _ => f
  | .ltC f _ => f
  | .lteC f _ => f

/-- `processContainCondition`: coerce the literal to a string, try the prefix
index, then the substring index, and otherwise fail with the
unsupported-index error. -/
def processContain (im : IndexManager) (field : String) (v : Value) :
    Except QErr (List Nat) :=
  match safeToString v with
  | none => .error .notStringCoercible
  | some cs =>
    match imQueryPrefix im field cs with
    | some result => .ok result
    | none =>
      match imQuerySubstring im field cs with
      | some result => .ok result
      | none => .error .unsupportedIndexForField

/-- `processEqualCondition`: the `fieldTypes` lookup fails exactly for
unregistered fields, and `convertValueToType` into the extractor's static
`interface{}` output type always succeeds and returns the value unchanged, so
the condition reduces to `IndexManager.Query`, with a `nil` result returned
as the empty set. -/
def processEqual (im : IndexManager) (field : String) (v : Value) :
    Except QErr (List Nat) :=
  match alookup im field with
  | none => .error .fieldNotIndexed
  | some _ =>
    match imQuery im field v with
    | none => .ok []
    | some set => .ok set

/-- `processInCondition`: union of `IndexManager.Query` over the members,
tracking whether any member produced a (non-nil) set. -/
def processIn (im : IndexManager) (field : String) (vs : List Value) :
    Except QErr (List Nat) :=
  match alookup im field with
  | none => .error .noIndexForField
  | some _ =>
    let res := vs.foldl (fun acc v =>
      match imQuery im field v with
      | none => acc
      | some set => (set.foldl (fun r id => setInsert r id) acc.1, true)) ([], false)
    if res.2 then .ok res.1 else .error .noInMatch

/-- One record test of `processRangeCondition`, with Go's short-circuit `&&`
for `between` (the second compare is not evaluated when the first already
fails); a `util.Compare` panic aborts everything. -/
def rangeTest (c : Cond) (val : Value) : Except QErr Bool :=
  match c with
  | .betweenC _ lo hi =>
    match compare val lo with
    | none => .error .panicked
    | some c1 =>
      if c1 ≥ 0 then
        match compare val hi with
        | none => .error .panicked
        | some c2 => .ok (decide (c2 ≤ 0))
      else .ok false
  | .gtC _ v =>
    match compare val v with
    | none => .error .panicked
    | some c1 => .ok (decide (c1 > 0))
  | .gteC _ v =>
    match compare val v with
    | none => .error .panicked
    | some c1 => .ok (decide (c1 ≥ 0))
  | .ltC _ v =>
    match compare val v with
    | none => .error .panicked
    | some c1 => .ok (decide (c1 < 0))
  | .lteC _ v =>
    match compare val v with
    | none => .error .panicked
    | some c1 => .ok (decide (c1 ≤ 0))
  | _ => .error .unsupportedOperator

/-- `processRangeCondition`: a full scan over the backing table (live and
tombstoned records alike), testing each extracted value against the bounds. -/
def processRange (im : IndexManager) (data : List Record) (field : String) (c : Cond) :
    Except QErr (List Nat) :=
  match alookup im field with
  | none => .error .noIndexForField
  | some fi =>
    data.foldl (fun acc r =>
      match acc with
      | .error e => .error e
      | .ok res =>
        match rangeTest c (fi.extractor r.data) with
        | .error e => .error e
        | .ok b => .ok (if b then setInsert res r.id else res)) (.ok [])

/-- `processCondition`: dispatch on the operator. -/
def processCondition (im : IndexManager) (data : List Record) : Cond → Except QErr (List Nat)
  | .eqC f v => processEqual im f v
  | .containsC f cs => processContain im f (.vStr cs)
  | .inC f vs => processIn im f vs
  | c => processRange im data c.condField c

/-- The condition loop of `executeQuery`: the first condition seeds the
matched set, each later one intersects into it (deleting identifiers missing
from the current set). -/
def resolveConds (im : IndexManager) (data : List Record) : List Cond → Except QErr (List Nat)
  | [] => .ok []
  | c :: cs =>
    match processCondition im data c with
    | .error e => .error e
    | .ok first =>
      cs.foldl (fun acc c' =>
        match acc with
        | .error e => .error e
        | .ok matched =>
          match processCondition im data c' with
          | .error e => .error e
          | .ok cur => .ok (matched.filter (· ∈ cur))) (.ok first)

/-- `applyPagination`: validate the bounds, then return the clamped slice
(the source copies it into a fresh slice). -/
def applyPagination (results : List Record) (offset limit : Int) :
    Except QErr (List Record) :=
  if offset < 0 then .error .invalidInput
  else if limit ≤ 0 then .error .invalidInput
  else if offset ≥ (results.length : Int) then .ok []
  else .ok ((results.drop offset.toNat).take limit.toNat)

/-- `executeQuery`: resolve and intersect the conditions (an empty condition
list leaves the matched set empty), resolve surviving identifiers to live
records via `Store.Get` (silently dropping failures), skip the commented-out
sort, and paginate. -/
def executeQuery (s : Store) (conds : List Cond) (offset limit : Int) :
    Except QErr (List Record) :=
  match resolveConds s.im s.data conds with
  | .error e => .error e
  | .ok matched =>
    let results := matched.filterMap fun id =>
      match storeGet s id with
      | .ok r => some r
      | .error _ => none
    applyPagination results offset limit

/-! ## Operation sequences and reachability -/

/-- One mutating store operation, with its environment timestamp. -/
inductive Op where
  | insertOp (d : Value) (now : Int)
  | updateOp (id : Nat) (d : Value) (now : Int)
  | deleteOp (id : Nat) (now : Int)

/-- Apply one operation; a failed update or delete leaves the store
unchanged, exactly as the Go methods return before mutating anything. -/
def applyOp (s : Store) : Op → Store
  | .insertOp d now => (storeInsert s d now).2
  | .updateOp id d now =>
    match storeUpdate s id d now with
    | .ok x => x.2
    | .error _ => s
  | .deleteOp id now =>
    match storeDelete s id now with
    | .ok s' => s'
    | .error _ => s

/-- Run a finite operation sequence. -/
def applyOps (s : Store) (ops : List Op) : Store :=
  ops.foldl applyOp s

/-- A store state reachable from a freshly constructed store by some finite
interleaving of insert, update and delete. -/
def Reachable (s : Store) : Prop :=
  ∃ versioning cfgs ops, s = applyOps (mkStore versioning cfgs) ops

/-- The identifiers handed out by the `Insert` calls of an operation
sequence, in execution order. -/
def assignedIds (s : Store) : List Op → List Nat
  | [] => []
  | .insertOp d now :: ops =>
    (storeInsert s d now).1.id :: assignedIds (applyOp s (.insertOp d now)) ops
  | op :: ops => assignedIds (applyOp s op) ops



/-! ## The store well-formedness invariant -/

/-- The record side of each index invariant: some live record with
identifier `j` whose payload satisfies `K`. -/
def holdsRec (data : List Record) (j : Nat) (K : Value → Prop) : Prop :=
  ∃ r ∈ data, r.deleted = false ∧ r.id = j ∧ K r.data

/-- The consistency invariant tying the backing table, the id→slot map, the
liveness bookkeeping and the three index structures together.  Every store
reachable by the exported operations satisfies it (`reachable_wf`). -/
structure WF (s : Store) : Prop where
  idMap_sound : ∀ id idx, s.idMapIndex id = some idx →
    ∃ r, s.data[idx]? = some r ∧ r.id = id
  idMap_complete : ∀ idx r, s.data[idx]? = some r → s.idMapIndex r.id = some idx
  ids_bound : ∀ r ∈ s.data, 1 ≤ r.id ∧ r.id ≤ s.idGen
  ids_nodup : (s.data.map Record.id).Nodup
  alive_mem : ∀ idx, idx ∈ s.aliveIndexes ↔
    ∃ r, s.data[idx]? = some r ∧ r.deleted = false
  alive_nodup : s.aliveIndexes.Nodup
  exact_inv : ∀ f fi, alookup s.im f = some fi → ∀ m, fi.exact = some m →
    ∀ v j, j ∈ getB m v ↔ holdsRec s.data j (fun dv => fi.extractor dv = v)
  trie_root : ∀ f fi, alookup s.im f = some fi → ∀ t, fi.trie = some t → t.ids = []
  trie_inv : ∀ f fi, alookup s.im f = some fi → ∀ t, fi.trie = some t →
    ∀ p j, p ≠ [] → (j ∈ idsAt t p ↔ holdsRec s.data j
      (fun dv => ∃ cs, safeToString (fi.extractor dv) = some cs ∧ p <+: cs))
  inverted_inv : ∀ f fi, alookup s.im f = some fi → ∀ m, fi.inverted = some m →
    ∀ w j, j ∈ getB m w ↔ holdsRec s.data j
      (fun dv => ∃ cs, safeToString (fi.extractor dv) = some cs ∧ w ∈ windows cs)


/-! ## Sample stores for concrete checks -/

/-- A field configuration indexing field `"name"` (identity extractor) in all
three modes. -/
def sampleCfg : List (String × (Value → Value) × List IndexType) :=
  [("name", fun v => v,
    [IndexType.indexExact, IndexType.indexPrefix, IndexType.indexSubstring])]

/-- One record `"ab"` inserted into a fresh store. -/
def sampleStore : Store :=
  (storeInsert (mkStore true sampleCfg) (.vStr ['a', 'b']) 0).2

/-- `sampleStore` after deleting record 1. -/
def sampleStoreDel : Store :=
  match storeDelete sampleStore 1 1 with
  | .ok s' => s'
  | .error _ => sampleStore

/-- A fresh store whose only field index is prefix-mode. -/
def prefixOnlyStore : Store :=
  mkStore true [("name", fun v => v, [IndexType.indexPrefix])]

/-- One empty-string record inserted into a fresh store. -/
def emptyStrStore : Store :=
  (storeInsert (mkStore true sampleCfg) (.vStr []) 0).2


/-- The record held by `sampleStore`. -/
def sampleRec : Record where
  id := 1
  data := .vStr ['a', 'b']
  version := 1
  createdAt := 0
  updatedAt := 0
  deleted := false

/-- The record held by `emptyStrStore`. -/
def emptyStrRec : Record where
  id := 1
  data := .vStr []
  version := 1
  createdAt := 0
  updatedAt := 0
  deleted := false

/-! ## Properties of the embedded operations -/
theorem alookup_aupd {κ α : Type} [DecidableEq κ] (m : List (κ × α)) (k k' : κ) (a : α) :
    alookup (aupd m k a) k' = if k' = k then some a else alookup m k' := by
  induction m with
  | nil => by_cases h : k' = k <;> simp [aupd, alookup, h]
  | cons p rest ih =>
    obtain ⟨k₀, a₀⟩ := p
    by_cases hk : k = k₀
    · subst hk
      by_cases h : k' = k <;> simp [aupd, alookup, h]
    · by_cases h : k' = k₀
      · subst h
        simp [aupd, alookup, hk, Ne.symm hk, ih]
      · simp [aupd, alookup, hk, h, ih]

theorem mem_setInsert (l : List Nat) (id j : Nat) :
    j ∈ setInsert l id ↔ j ∈ l ∨ j = id := by
  unfold setInsert
  by_cases hid : id ∈ l
  · rw [if_pos hid]
    constructor
    · exact Or.inl
    · rintro (hj | rfl)
      · exact hj
      · exact hid
  · rw [if_neg hid]
    simp

theorem mem_setRemove (l : List Nat) (id j : Nat) :
    j ∈ setRemove l id ↔ j ∈ l ∧ j ≠ id := by
  simp [setRemove, List.mem_filter]

theorem getB_bAdd_eq {κ : Type} [DecidableEq κ] (m : Buckets κ) (k k' : κ) (id : Nat) :
    getB (bAdd m k id) k' = if k' = k then setInsert (getB m k) id else getB m k' := by
  by_cases h : k' = k
  · subst h
    simp [bAdd, getB]
  · simp [bAdd, getB, h]

theorem getB_bRemove_eq {κ : Type} [DecidableEq κ] (m : Buckets κ) (k k' : κ) (id : Nat) :
    getB (bRemove m k id) k' = if k' = k then setRemove (getB m k) id else getB m k' := by
  cases hmk : m k with
  | none =>
    have hrw : bRemove m k id = m := by
      unfold bRemove
      rw [hmk]
    rw [hrw]
    by_cases h : k' = k
    · subst h
      simp [getB, hmk, setRemove]
    · rw [if_neg h]
  | some bucket =>
    have hrw : bRemove m k id = fun k'' => if k'' = k then
        (if setRemove bucket id = [] then none else some (setRemove bucket id))
      else m k'' := by
      unfold bRemove
      rw [hmk]
    rw [hrw]
    by_cases h : k' = k
    · subst h
      by_cases hb : setRemove bucket id = []
      · simp [getB, hb, hmk]
      · simp [getB, hb, hmk]
    · simp [getB, h]

theorem mem_getB_bAdd {κ : Type} [DecidableEq κ] (m : Buckets κ) (k k' : κ) (id j : Nat) :
    j ∈ getB (bAdd m k id) k' ↔ j ∈ getB m k' ∨ (j = id ∧ k' = k) := by
  rw [getB_bAdd_eq]
  by_cases h : k' = k
  · subst h
    rw [if_pos rfl, mem_setInsert]
    tauto
  · rw [if_neg h]
    tauto

theorem mem_getB_bRemove {κ : Type} [DecidableEq κ] (m : Buckets κ) (k k' : κ) (id j : Nat) :
    j ∈ getB (bRemove m k id) k' ↔ j ∈ getB m k' ∧ ¬(j = id ∧ k' = k) := by
  rw [getB_bRemove_eq]
  by_cases h : k' = k
  · subst h
    rw [if_pos rfl, mem_setRemove]
    tauto
  · rw [if_neg h]
    tauto

theorem childOf_setChild (t : TrieNode) (c c' : Char) (n : TrieNode) :
    childOf (setChild t c n) c' = if c' = c then some n else childOf t c' :=
  alookup_aupd t.children c c' n

theorem ids_setChild (t : TrieNode) (c : Char) (n : TrieNode) :
    (setChild t c n).ids = t.ids := rfl

theorem idsAt_nil (t : TrieNode) : idsAt t [] = t.ids := rfl

theorem idsAt_cons (t : TrieNode) (c : Char) (p : List Char) :
    idsAt t (c :: p) = idsAt ((childOf t c).getD emptyNode) p := by
  cases hc : childOf t c with
  | none =>
    simp only [idsAt, queryPrefix, hc, Option.getD_none]
    cases p with
    | nil => rfl
    | cons c' p' => simp [queryPrefix, childOf, emptyNode, TrieNode.children, alookup]
  | some child => simp [idsAt, queryPrefix, hc]

theorem idsAt_emptyNode (p : List Char) : idsAt emptyNode p = [] := by
  cases p with
  | nil => rfl
  | cons c p' => simp [idsAt, queryPrefix, childOf, emptyNode, TrieNode.children, alookup]

theorem idsAt_addId (t : TrieNode) (id j : Nat) (p : List Char) :
    j ∈ idsAt (addId t id) p ↔ j ∈ idsAt t p ∨ (j = id ∧ p = []) := by
  cases p with
  | nil =>
    simp only [idsAt_nil, addId, TrieNode.ids, mem_setInsert]
    tauto
  | cons c p' =>
    have hch : childOf (addId t id) c = childOf t c := rfl
    rw [idsAt_cons, idsAt_cons, hch]
    simp

theorem idsAt_removeId (t : TrieNode) (id j : Nat) (p : List Char) :
    j ∈ idsAt (removeId t id) p ↔ j ∈ idsAt t p ∧ ¬(j = id ∧ p = []) := by
  cases p with
  | nil =>
    simp only [idsAt_nil, removeId, TrieNode.ids, mem_setRemove]
    tauto
  | cons c p' =>
    have hch : childOf (removeId t id) c = childOf t c := rfl
    rw [idsAt_cons, idsAt_cons, hch]
    simp

/-- Effect of `Trie.Insert` on every observable identifier set: the inserted
identifier appears at exactly the nonempty prefixes of the key, and nothing
else changes. -/
theorem mem_idsAt_trieInsert (k : List Char) (t : TrieNode) (id j : Nat) (p : List Char) :
    j ∈ idsAt (trieInsert t k id) p ↔
      j ∈ idsAt t p ∨ (j = id ∧ p ≠ [] ∧ p <+: k) := by
  induction k generalizing t p with
  | nil =>
    simp only [trieInsert]
    constructor
    · exact Or.inl
    · rintro (hj | ⟨-, hne, hpre⟩)
      · exact hj
      · exact absurd (List.prefix_nil.mp hpre) hne
  | cons c k' ih =>
    cases p with
    | nil =>
      simp only [trieInsert, idsAt_nil, ids_setChild]
      tauto
    | cons c' p' =>
      by_cases hc : c' = c
      · subst hc
        simp only [trieInsert]
        rw [idsAt_cons, childOf_setChild, if_pos rfl, Option.getD_some, ih,
          idsAt_addId, idsAt_cons]
        constructor
        · rintro ((hj | ⟨rfl, rfl⟩) | ⟨rfl, hne, hpre⟩)
          · exact Or.inl hj
          · exact Or.inr ⟨rfl, List.cons_ne_nil _ _,
              List.cons_prefix_cons.mpr ⟨rfl, List.nil_prefix⟩⟩
          · exact Or.inr ⟨rfl, List.cons_ne_nil _ _,
              List.cons_prefix_cons.mpr ⟨rfl, hpre⟩⟩
        · rintro (hj | ⟨rfl, -, hpre⟩)
          · exact Or.inl (Or.inl hj)
          · have hp' : p' <+: k' := (List.cons_prefix_cons.mp hpre).2
            cases p' with
            | nil => exact Or.inl (Or.inr ⟨rfl, rfl⟩)
            | cons c'' p'' => exact Or.inr ⟨rfl, List.cons_ne_nil _ _, hp'⟩
      · simp only [trieInsert]
        rw [idsAt_cons, childOf_setChild, if_neg hc, ← idsAt_cons]
        constructor
        · exact Or.inl
        · rintro (hj | ⟨-, -, hpre⟩)
          · exact hj
          · exact absurd (List.cons_prefix_cons.mp hpre).1 hc

/-- Effect of `Trie.Delete` on every observable identifier set: the identifier
is removed at exactly the nonempty existing prefixes of the key (whether or
not the complete key path exists — the walk stops at the first missing child,
but every existing prefix node has already been stripped), and nothing else
changes. -/
theorem mem_idsAt_trieDelete (k : List Char) (t : TrieNode) (id j : Nat) (p : List Char) :
    j ∈ idsAt (trieDelete t k id) p ↔
      j ∈ idsAt t p ∧ ¬(j = id ∧ p ≠ [] ∧ p <+: k) := by
  induction k generalizing t p with
  | nil =>
    simp only [trieDelete]
    constructor
    · intro hj
      refine ⟨hj, ?_⟩
      rintro ⟨-, hne, hpre⟩
      exact absurd (List.prefix_nil.mp hpre) hne
    · exact fun h => h.1
  | cons c k' ih =>
    cases hc0 : childOf t c with
    | none =>
      have hrw : trieDelete t (c :: k') id = t := by
        simp only [trieDelete, hc0]
      rw [hrw]
      constructor
      · intro hj
        refine ⟨hj, ?_⟩
        rintro ⟨rfl, hne, hpre⟩
        cases p with
        | nil => exact hne rfl
        | cons c' p' =>
          have : c' = c := (List.cons_prefix_cons.mp hpre).1
          subst this
          rw [idsAt_cons, hc0, Option.getD_none, idsAt_emptyNode] at hj
          exact List.not_mem_nil _ hj
      · exact fun h => h.1
    | some child =>
      have hrw : trieDelete t (c :: k') id =
          setChild t c (trieDelete (removeId child id) k' id) := by
        simp only [trieDelete, hc0]
      rw [hrw]
      cases p with
      | nil =>
        simp only [idsAt_nil, ids_setChild]
        tauto
      | cons c' p' =>
        by_cases hc : c' = c
        · subst hc
          rw [idsAt_cons, childOf_setChild, if_pos rfl, Option.getD_some, ih,
            idsAt_removeId, idsAt_cons, hc0, Option.getD_some]
          constructor
          · rintro ⟨⟨hj, hne1⟩, hne2⟩
            refine ⟨hj, ?_⟩
            rintro ⟨rfl, -, hpre⟩
            have hp' : p' <+: k' := (List.cons_prefix_cons.mp hpre).2
            cases p' with
            | nil => exact hne1 ⟨rfl, rfl⟩
            | cons c'' p'' => exact hne2 ⟨rfl, List.cons_ne_nil _ _, hp'⟩
          · rintro ⟨hj, hne⟩
            refine ⟨⟨hj, ?_⟩, ?_⟩
            · rintro ⟨rfl, rfl⟩
              exact hne ⟨rfl, List.cons_ne_nil _ _,
                List.cons_prefix_cons.mpr ⟨rfl, List.nil_prefix⟩⟩
            · rintro ⟨rfl, -, hpre⟩
              exact hne ⟨rfl, List.cons_ne_nil _ _,
                List.cons_prefix_cons.mpr ⟨rfl, hpre⟩⟩
        · rw [idsAt_cons, childOf_setChild, if_neg hc, ← idsAt_cons]
          constructor
          · intro hj
            refine ⟨hj, ?_⟩
            rintro ⟨-, -, hpre⟩
            exact absurd (List.cons_prefix_cons.mp hpre).1 hc
          · exact fun h => h.1

/-- `Trie.Delete` never changes the node structure: a path exists after the
deletion exactly when it existed before. -/
theorem queryPrefix_isSome_trieDelete (k : List Char) (t : TrieNode) (id : Nat) (p : List Char) :
    (queryPrefix (trieDelete t k id) p).isSome = (queryPrefix t p).isSome := by
  induction k generalizing t p with
  | nil => simp only [trieDelete]
  | cons c k' ih =>
    cases hc0 : childOf t c with
    | none => simp only [trieDelete, hc0]
    | some child =>
      have hrw : trieDelete t (c :: k') id =
          setChild t c (trieDelete (removeId child id) k' id) := by
        simp only [trieDelete, hc0]
      rw [hrw]
      cases p with
      | nil => rfl
      | cons c' p' =>
        by_cases hc : c' = c
        · subst hc
          have hcs : childOf (setChild t c' (trieDelete (removeId child id) k' id)) c' =
              some (trieDelete (removeId child id) k' id) := by
            rw [childOf_setChild, if_pos rfl]
          simp only [queryPrefix, hcs, hc0]
          rw [ih]
          cases p' with
          | nil => rfl
          | cons c'' p'' => rfl
        · have hcs : childOf (setChild t c (trieDelete (removeId child id) k' id)) c' =
              childOf t c' := by
            rw [childOf_setChild, if_neg hc]
          simp only [queryPrefix, hcs]

/-! ### Ordering properties of `strCompare` / `compare` -/

theorem mem_windows (s w : List Char) :
    w ∈ windows s ↔ w ≠ [] ∧ w <:+: s := by
  constructor
  · intro hw
    simp only [windows, List.mem_flatMap, List.mem_map, List.mem_range] at hw
    obtain ⟨i, hi, d, hd, rfl⟩ := hw
    constructor
    · intro hnil
      have hlen := congrArg List.length hnil
      simp only [List.length_take, List.length_drop, List.length_nil] at hlen
      omega
    · exact List.infix_iff_prefix_suffix.mpr
        ⟨s.drop i, List.take_prefix _ _, List.drop_suffix _ _⟩
  · rintro ⟨hne, hinf⟩
    obtain ⟨u, v, rfl⟩ := hinf
    have hwpos : 0 < w.length := List.length_pos.mpr hne
    simp only [windows, List.mem_flatMap, List.mem_map, List.mem_range]
    refine ⟨u.length, ?_, w.length - 1, ?_, ?_⟩
    · simp only [List.length_append]
      omega
    · simp only [List.length_append]
      omega
    · have h1 : w.length - 1 + 1 = w.length := by omega
      rw [h1, List.append_assoc, List.drop_left, List.take_left]

/-! ### Bucket folds and index-manager plumbing -/

theorem mem_getB_foldAdd {κ : Type} [DecidableEq κ] (ks : List κ) (m : Buckets κ)
    (id j : Nat) (k : κ) :
    j ∈ getB (ks.foldl (fun m' w => bAdd m' w id) m) k ↔
      j ∈ getB m k ∨ (j = id ∧ k ∈ ks) := by
  induction ks generalizing m with
  | nil => simp
  | cons w ks ih =>
    simp only [List.foldl_cons]
    rw [ih, mem_getB_bAdd]
    simp only [List.mem_cons]
    tauto

theorem mem_getB_foldRemove {κ : Type} [DecidableEq κ] (ks : List κ) (m : Buckets κ)
    (id j : Nat) (k : κ) :
    j ∈ getB (ks.foldl (fun m' w => bRemove m' w id) m) k ↔
      j ∈ getB m k ∧ ¬(j = id ∧ k ∈ ks) := by
  induction ks generalizing m with
  | nil => simp
  | cons w ks ih =>
    simp only [List.foldl_cons]
    rw [ih, mem_getB_bRemove]
    simp only [List.mem_cons]
    tauto

theorem alookup_mapVal {κ α β : Type} [DecidableEq κ] (g : κ → α → β) (l : List (κ × α)) (k : κ) :
    alookup (l.map fun e => (e.1, g e.1 e.2)) k = (alookup l k).map (g k) := by
  induction l with
  | nil => rfl
  | cons e rest ih =>
    obtain ⟨k₀, a₀⟩ := e
    by_cases h : k = k₀
    · subst h
      simp [alookup]
    · simp [alookup, h, ih]

theorem alookup_imAdd (im : IndexManager) (d : Value) (id : Nat) (f : String) :
    alookup (imAdd im d id) f = (alookup im f).map (fun fi => fiAdd fi d id) :=
  alookup_mapVal (fun _ fi => fiAdd fi d id) im f

theorem alookup_imRemove (im : IndexManager) (d : Value) (id : Nat) (f : String) :
    alookup (imRemove im d id) f = (alookup im f).map (fun fi => fiRemove fi d id) :=
  alookup_mapVal (fun _ fi => fiRemove fi d id) im f

theorem ids_trieInsert (t : TrieNode) (k : List Char) (id : Nat) :
    (trieInsert t k id).ids = t.ids := by
  cases k with
  | nil => rfl
  | cons c k' => rfl

theorem ids_trieDelete (t : TrieNode) (k : List Char) (id : Nat) :
    (trieDelete t k id).ids = t.ids := by
  cases k with
  | nil => rfl
  | cons c k' =>
    cases hc : childOf t c with
    | none => simp [trieDelete, hc]
    | some child => simp [trieDelete, hc, ids_setChild]

/-! ### Record-side lemmas for the index invariants -/

theorem id_slot_unique (l : List Record) (hnodup : (l.map Record.id).Nodup)
    (i i' : Nat) (r r' : Record) (hi : l[i]? = some r) (hi' : l[i']? = some r')
    (hid : r.id = r'.id) : i = i' := by
  have h1 : (l.map Record.id)[i]? = some r.id := by
    rw [List.getElem?_map, hi, Option.map_some']
  have h2 : (l.map Record.id)[i']? = some r'.id := by
    rw [List.getElem?_map, hi', Option.map_some']
  have hlen : i < (l.map Record.id).length := by
    rw [List.length_map]
    exact (List.getElem?_eq_some_iff.mp hi).1
  exact List.getElem?_inj hlen hnodup (by rw [h1, h2, hid])

theorem holdsRec_concat (l : List Record) (rec : Record) (hlive : rec.deleted = false)
    (j : Nat) (K : Value → Prop) :
    holdsRec (l ++ [rec]) j K ↔ holdsRec l j K ∨ (j = rec.id ∧ K rec.data) := by
  unfold holdsRec
  constructor
  · rintro ⟨r, hr, hd, hid, hk⟩
    rcases List.mem_append.mp hr with h | h
    · exact Or.inl ⟨r, h, hd, hid, hk⟩
    · rcases List.mem_singleton.mp h with rfl
      exact Or.inr ⟨hid.symm, hk⟩
  · rintro (⟨r, hr, hd, hid, hk⟩ | ⟨rfl, hk⟩)
    · exact ⟨r, List.mem_append_left _ hr, hd, hid, hk⟩
    · exact ⟨rec, List.mem_append_right _ (List.mem_singleton_self rec), hlive, rfl, hk⟩

theorem holdsRec_set_remove (l : List Record) (idx : Nat) (r r' : Record)
    (hidx : l[idx]? = some r) (hnodup : (l.map Record.id).Nodup)
    (hid : r'.id = r.id) (hdel : r'.deleted = true) (j : Nat) (K : Value → Prop) :
    holdsRec (l.set idx r') j K ↔ holdsRec l j K ∧ ¬(j = r.id ∧ K r.data) := by
  unfold holdsRec
  constructor
  · rintro ⟨r'', hr'', hd, hjid, hk⟩
    obtain ⟨i, hi⟩ := List.mem_iff_getElem?.mp hr''
    by_cases hieq : idx = i
    · subst hieq
      rw [List.getElem?_set_self ((List.getElem?_eq_some_iff.mp hidx).1)] at hi
      cases hi
      rw [hdel] at hd
      cases hd
    · rw [List.getElem?_set_ne hieq] at hi
      constructor
      · exact ⟨r'', List.mem_iff_getElem?.mpr ⟨i, hi⟩, hd, hjid, hk⟩
      · rintro ⟨rfl, -⟩
        exact hieq (id_slot_unique l hnodup idx i r r'' hidx hi (by rw [hjid]))
  · rintro ⟨⟨r'', hr'', hd, hjid, hk⟩, hnot⟩
    obtain ⟨i, hi⟩ := List.mem_iff_getElem?.mp hr''
    have hieq : idx ≠ i := by
      intro h
      subst h
      rw [hidx] at hi
      cases hi
      exact hnot ⟨hjid.symm, hk⟩
    refine ⟨r'', ?_, hd, hjid, hk⟩
    exact List.mem_iff_getElem?.mpr ⟨i, by rw [List.getElem?_set_ne hieq]; exact hi⟩

theorem holdsRec_set_update (l : List Record) (idx : Nat) (r r' : Record)
    (hidx : l[idx]? = some r) (hnodup : (l.map Record.id).Nodup)
    (hid : r'.id = r.id) (hlive' : r'.deleted = false) (j : Nat) (K : Value → Prop) :
    holdsRec (l.set idx r') j K ↔
      (holdsRec l j K ∧ ¬(j = r.id ∧ K r.data)) ∨ (j = r.id ∧ K r'.data) := by
  unfold holdsRec
  constructor
  · rintro ⟨r'', hr'', hd, hjid, hk⟩
    obtain ⟨i, hi⟩ := List.mem_iff_getElem?.mp hr''
    by_cases hieq : idx = i
    · subst hieq
      rw [List.getElem?_set_self ((List.getElem?_eq_some_iff.mp hidx).1)] at hi
      cases hi
      exact Or.inr ⟨by rw [← hjid, hid], hk⟩
    · rw [List.getElem?_set_ne hieq] at hi
      refine Or.inl ⟨⟨r'', List.mem_iff_getElem?.mpr ⟨i, hi⟩, hd, hjid, hk⟩, ?_⟩
      rintro ⟨rfl, -⟩
      exact hieq (id_slot_unique l hnodup idx i r r'' hidx hi (by rw [hjid]))
  · rintro (⟨⟨r'', hr'', hd, hjid, hk⟩, hnot⟩ | ⟨rfl, hk⟩)
    · obtain ⟨i, hi⟩ := List.mem_iff_getElem?.mp hr''
      have hieq : idx ≠ i := by
        intro h
        subst h
        rw [hidx] at hi
        cases hi
        exact hnot ⟨hjid.symm, hk⟩
      refine ⟨r'', ?_, hd, hjid, hk⟩
      exact List.mem_iff_getElem?.mpr ⟨i, by rw [List.getElem?_set_ne hieq]; exact hi⟩
    · refine ⟨r', ?_, hlive', hid, hk⟩
      have hl : idx < l.length := (List.getElem?_eq_some_iff.mp hidx).1
      exact List.mem_iff_getElem?.mpr ⟨idx, List.getElem?_set_self (by exact hl)⟩

/-! ### Well-formedness of a fresh store -/

theorem alookup_registerFold (cfgs : List (String × (Value → Value) × List IndexType)) :
    ∀ im : IndexManager,
      (∀ f fi, alookup im f = some fi →
        (fi.exact = none ∨ fi.exact = some bEmpty) ∧
        (fi.trie = none ∨ fi.trie = some emptyNode) ∧
        (fi.inverted = none ∨ fi.inverted = some bEmpty)) →
      ∀ f fi, alookup (cfgs.foldl (fun im' c => imRegister im' c.1 c.2.1 c.2.2) im) f = some fi →
        (fi.exact = none ∨ fi.exact = some bEmpty) ∧
        (fi.trie = none ∨ fi.trie = some emptyNode) ∧
        (fi.inverted = none ∨ fi.inverted = some bEmpty) := by
  induction cfgs with
  | nil => exact fun im h f fi hf => h f fi hf
  | cons c rest ih =>
    intro im h f fi hf
    simp only [List.foldl_cons] at hf
    refine ih _ ?_ f fi hf
    intro f' fi' hf'
    rw [imRegister, alookup_aupd] at hf'
    by_cases hc : f' = c.1
    · rw [if_pos hc] at hf'
      cases hf'
      refine ⟨?_, ?_, ?_⟩
      · by_cases h1 : IndexType.indexExact ∈ c.2.2
        · right; simp [h1]
        · left; simp [h1]
      · by_cases h1 : IndexType.indexPrefix ∈ c.2.2
        · right; simp [h1]
        · left; simp [h1]
      · by_cases h1 : IndexType.indexSubstring ∈ c.2.2
        · right; simp [h1]
        · left; simp [h1]
    · rw [if_neg hc] at hf'
      exact h f' fi' hf'

theorem wf_mkStore (v : Bool) (cfgs : List (String × (Value → Value) × List IndexType)) :
    WF (mkStore v cfgs) := by
  have hreg := alookup_registerFold cfgs []
    (by intro f fi h; simp [alookup] at h)
  constructor
  · intro id idx h
    exact Option.noConfusion h
  · intro idx r h
    rw [mkStore] at h
    simp at h
  · intro r hr
    rw [mkStore] at hr
    simp at hr
  · rw [mkStore]
    simp
  · intro idx
    rw [mkStore]
    simp
  · rw [mkStore]
    simp
  · intro f fi hfi m hm v' j
    rcases (hreg f fi hfi).1 with h | h
    · rw [h] at hm; cases hm
    · rw [h] at hm
      cases hm
      rw [mkStore]
      simp [getB, bEmpty, holdsRec]
  · intro f fi hfi t ht
    rcases (hreg f fi hfi).2.1 with h | h
    · rw [h] at ht; cases ht
    · rw [h] at ht
      cases ht
      rfl
  · intro f fi hfi t ht p j hp
    rcases (hreg f fi hfi).2.1 with h | h
    · rw [h] at ht; cases ht
    · rw [h] at ht
      cases ht
      rw [idsAt_emptyNode, mkStore]
      simp [holdsRec]
  · intro f fi hfi m hm w j
    rcases (hreg f fi hfi).2.2 with h | h
    · rw [h] at hm; cases hm
    · rw [h] at hm
      cases hm
      rw [mkStore]
      simp [getB, bEmpty, holdsRec]

/-! ### Well-formedness preservation: insert -/

theorem wf_insert (s : Store) (d : Value) (now : Int) (hwf : WF s) :
    WF (storeInsert s d now).2 := by
  set nid := s.idGen + 1 with hnid
  set rec : Record :=
    { id := nid, data := d, version := 1, createdAt := now, updatedAt := now,
      deleted := false } with hrecdef
  set n := s.data.length with hn
  have hdata : (storeInsert s d now).2.data = s.data ++ [rec] := rfl
  have hgen : (storeInsert s d now).2.idGen = nid := rfl
  have hmap : (storeInsert s d now).2.idMapIndex =
      fun i => if i = nid then some n else s.idMapIndex i := rfl
  have halive : (storeInsert s d now).2.aliveIndexes = s.aliveIndexes ++ [n] := rfl
  have him : (storeInsert s d now).2.im = imAdd s.im d nid := rfl
  have hrecid : rec.id = nid := rfl
  have hrecdata : rec.data = d := rfl
  have hreclive : rec.deleted = false := rfl
  have hidgt : ∀ r ∈ s.data, r.id < nid := by
    intro r hr
    have := (hwf.ids_bound r hr).2
    omega
  constructor
  · -- idMap_sound
    intro i0 idx h
    rw [hmap] at h
    simp only at h
    by_cases hi : i0 = nid
    · rw [if_pos hi] at h
      cases h
      refine ⟨rec, ?_, by rw [hrecid, hi]⟩
      rw [hdata, hn]
      exact List.getElem?_concat_length s.data rec
    · rw [if_neg hi] at h
      obtain ⟨r, hr, hrid⟩ := hwf.idMap_sound i0 idx h
      refine ⟨r, ?_, hrid⟩
      rw [hdata, List.getElem?_append_left ((List.getElem?_eq_some_iff.mp hr).1)]
      exact hr
  · -- idMap_complete
    intro idx r h
    rw [hdata] at h
    have hlt : idx < n + 1 := by
      have := (List.getElem?_eq_some_iff.mp h).1
      simp only [List.length_append, List.length_cons, List.length_nil] at this
      omega
    rw [hmap]
    simp only
    by_cases hi : idx = n
    · subst hi
      rw [hn, List.getElem?_concat_length] at h
      cases h
      rw [if_pos hrecid]
    · have hlt' : idx < n := by omega
      rw [List.getElem?_append_left hlt'] at h
      have hrid : r.id ≠ nid := by
        intro hc
        have := hidgt r (List.mem_iff_getElem?.mpr ⟨idx, h⟩)
        omega
      rw [if_neg hrid]
      exact hwf.idMap_complete idx r h
  · -- ids_bound
    intro r hr
    rw [hdata] at hr
    rcases List.mem_append.mp hr with h | h
    · have := hwf.ids_bound r h
      rw [hgen]
      omega
    · rcases List.mem_singleton.mp h with rfl
      rw [hgen, hrecid]
      omega
  · -- ids_nodup
    rw [hdata, List.map_append, List.nodup_append]
    refine ⟨hwf.ids_nodup, by simp, ?_⟩
    intro a ha hb
    simp only [List.map_cons, List.map_nil, List.mem_singleton] at hb
    subst hb
    simp only [List.mem_map] at ha
    obtain ⟨r, hr, hrid⟩ := ha
    have := hidgt r hr
    omega
  · -- alive_mem
    intro idx
    rw [halive, hdata]
    constructor
    · intro h
      rcases List.mem_append.mp h with h | h
      · obtain ⟨r, hr, hd⟩ := (hwf.alive_mem idx).mp h
        refine ⟨r, ?_, hd⟩
        rw [List.getElem?_append_left ((List.getElem?_eq_some_iff.mp hr).1)]
        exact hr
      · rcases List.mem_singleton.mp h with rfl
        refine ⟨rec, ?_, hreclive⟩
        rw [hn]
        exact List.getElem?_concat_length s.data rec
    · rintro ⟨r, hr, hd⟩
      have hlt : idx < n + 1 := by
        have := (List.getElem?_eq_some_iff.mp hr).1
        simp only [List.length_append, List.length_cons, List.length_nil] at this
        omega
      by_cases hi : idx = n
      · subst hi
        exact List.mem_append_right _ (List.mem_singleton_self n)
      · have hlt' : idx < n := by omega
        rw [List.getElem?_append_left hlt'] at hr
        exact List.mem_append_left _ ((hwf.alive_mem idx).mpr ⟨r, hr, hd⟩)
  · -- alive_nodup
    rw [halive, List.nodup_append]
    refine ⟨hwf.alive_nodup, by simp, ?_⟩
    intro a ha hb
    rcases List.mem_singleton.mp hb with rfl
    obtain ⟨r, hr, -⟩ := (hwf.alive_mem _).mp ha
    have := (List.getElem?_eq_some_iff.mp hr).1
    omega
  · -- exact_inv
    intro f fi' hfi' m' hm' v' j
    rw [him, alookup_imAdd, Option.map_eq_some'] at hfi'
    obtain ⟨fi, hfi, rfl⟩ := hfi'
    have hex : (fiAdd fi d nid).exact = fi.exact.map (fun m => bAdd m (fi.extractor d) nid) := rfl
    rw [hex, Option.map_eq_some'] at hm'
    obtain ⟨m, hm, rfl⟩ := hm'
    have hextr : (fiAdd fi d nid).extractor = fi.extractor := rfl
    rw [hdata, mem_getB_bAdd, hwf.exact_inv f fi hfi m hm v' j, hextr,
      holdsRec_concat _ _ hreclive, hrecid, hrecdata]
    constructor
    · rintro (h | ⟨rfl, rfl⟩)
      · exact Or.inl h
      · exact Or.inr ⟨rfl, rfl⟩
    · rintro (h | ⟨rfl, h⟩)
      · exact Or.inl h
      · exact Or.inr ⟨rfl, h.symm⟩
  · -- trie_root
    intro f fi' hfi' t' ht'
    rw [him, alookup_imAdd, Option.map_eq_some'] at hfi'
    obtain ⟨fi, hfi, rfl⟩ := hfi'
    have htr : (fiAdd fi d nid).trie = fi.trie.map (fun t =>
        match safeToString (fi.extractor d) with
        | none => t
        | some cs => trieInsert t cs nid) := rfl
    rw [htr, Option.map_eq_some'] at ht'
    obtain ⟨t, ht, rfl⟩ := ht'
    cases hcs : safeToString (fi.extractor d) with
    | none =>
      simp only [hcs]
      exact hwf.trie_root f fi hfi t ht
    | some cs =>
      simp only [hcs]
      rw [ids_trieInsert]
      exact hwf.trie_root f fi hfi t ht
  · -- trie_inv
    intro f fi' hfi' t' ht' p j hp
    rw [him, alookup_imAdd, Option.map_eq_some'] at hfi'
    obtain ⟨fi, hfi, rfl⟩ := hfi'
    have htr : (fiAdd fi d nid).trie = fi.trie.map (fun t =>
        match safeToString (fi.extractor d) with
        | none => t
        | some cs => trieInsert t cs nid) := rfl
    rw [htr, Option.map_eq_some'] at ht'
    obtain ⟨t, ht, rfl⟩ := ht'
    have hextr : (fiAdd fi d nid).extractor = fi.extractor := rfl
    rw [hextr, hdata, holdsRec_concat _ _ hreclive, hrecid, hrecdata]
    cases hcs : safeToString (fi.extractor d) with
    | none =>
      simp only [hcs]
      rw [hwf.trie_inv f fi hfi t ht p j hp]
      constructor
      · exact Or.inl
      · rintro (h | ⟨-, cs, hsome, -⟩)
        · exact h
        · cases hsome
    | some cs =>
      simp only [hcs]
      rw [mem_idsAt_trieInsert, hwf.trie_inv f fi hfi t ht p j hp]
      constructor
      · rintro (h | ⟨rfl, -, hpre⟩)
        · exact Or.inl h
        · exact Or.inr ⟨rfl, cs, rfl, hpre⟩
      · rintro (h | ⟨rfl, cs', hsome, hpre⟩)
        · exact Or.inl h
        · cases hsome
          exact Or.inr ⟨rfl, hp, hpre⟩
  · -- inverted_inv
    intro f fi' hfi' m' hm' w j
    rw [him, alookup_imAdd, Option.map_eq_some'] at hfi'
    obtain ⟨fi, hfi, rfl⟩ := hfi'
    have hinv : (fiAdd fi d nid).inverted = fi.inverted.map (fun m =>
        match safeToString (fi.extractor d) with
        | none => m
        | some cs => (windows cs).foldl (fun m' w' => bAdd m' w' nid) m) := rfl
    rw [hinv, Option.map_eq_some'] at hm'
    obtain ⟨m, hm, rfl⟩ := hm'
    have hextr : (fiAdd fi d nid).extractor = fi.extractor := rfl
    rw [hextr, hdata, holdsRec_concat _ _ hreclive, hrecid, hrecdata]
    cases hcs : safeToString (fi.extractor d) with
    | none =>
      simp only [hcs]
      rw [hwf.inverted_inv f fi hfi m hm w j]
      constructor
      · exact Or.inl
      · rintro (h | ⟨-, cs, hsome, -⟩)
        · exact h
        · cases hsome
    | some cs =>
      simp only [hcs]
      rw [mem_getB_foldAdd, hwf.inverted_inv f fi hfi m hm w j]
      constructor
      · rintro (h | ⟨rfl, hw⟩)
        · exact Or.inl h
        · exact Or.inr ⟨rfl, cs, rfl, hw⟩
      · rintro (h | ⟨rfl, cs', hsome, hw⟩)
        · exact Or.inl h
        · cases hsome
          exact Or.inr ⟨rfl, hw⟩

/-! ### Well-formedness preservation: delete -/

theorem storeDelete_ok (s : Store) (id : Nat) (now : Int) (s' : Store)
    (h : storeDelete s id now = .ok s') :
    ∃ idx r, s.idMapIndex id = some idx ∧ s.data[idx]? = some r ∧ r.deleted = false ∧
      s' = { s with
        data := s.data.set idx { r with deleted := true, updatedAt := now }
        aliveIndexes := s.aliveIndexes.erase idx
        aliveIndexSet := fun i => if i = idx then false else s.aliveIndexSet i
        im := imRemove s.im r.data r.id } := by
  unfold storeDelete at h
  split at h
  · exact Except.noConfusion h
  · rename_i idx hmap
    split at h
    · exact Except.noConfusion h
    · rename_i r hdat
      split at h
      · exact Except.noConfusion h
      · rename_i hdel
        cases h
        exact ⟨idx, r, hmap, hdat, Bool.eq_false_iff.mpr hdel, rfl⟩

theorem wf_delete (s : Store) (id : Nat) (now : Int) (s' : Store)
    (h : storeDelete s id now = .ok s') (hwf : WF s) : WF s' := by
  obtain ⟨idx, r, hmap, hdat, hdel, rfl⟩ := storeDelete_ok s id now s' h
  set r' : Record := { r with deleted := true, updatedAt := now } with hr'def
  have hidx_lt : idx < s.data.length := (List.getElem?_eq_some_iff.mp hdat).1
  have hrid_map : s.idMapIndex r.id = some idx := hwf.idMap_complete idx r hdat
  constructor
  · intro i0 i h0
    obtain ⟨r0, hr0, hr0id⟩ := hwf.idMap_sound i0 i h0
    by_cases hieq : idx = i
    · subst hieq
      rw [hdat] at hr0
      cases hr0
      refine ⟨r', ?_, hr0id⟩
      rw [List.getElem?_set_self hidx_lt]
    · refine ⟨r0, ?_, hr0id⟩
      rw [List.getElem?_set_ne hieq]
      exact hr0
  · intro i r0 h0
    by_cases hieq : idx = i
    · subst hieq
      rw [List.getElem?_set_self hidx_lt] at h0
      cases h0
      exact hrid_map
    · rw [List.getElem?_set_ne hieq] at h0
      exact hwf.idMap_complete i r0 h0
  · intro r0 hr0
    obtain ⟨i, hi⟩ := List.mem_iff_getElem?.mp hr0
    by_cases hieq : idx = i
    · subst hieq
      rw [List.getElem?_set_self hidx_lt] at hi
      cases hi
      exact hwf.ids_bound r (List.mem_iff_getElem?.mpr ⟨idx, hdat⟩)
    · rw [List.getElem?_set_ne hieq] at hi
      exact hwf.ids_bound r0 (List.mem_iff_getElem?.mpr ⟨i, hi⟩)
  · have hmapeq : (s.data.set idx r').map Record.id = s.data.map Record.id := by
      apply List.ext_getElem?
      intro n
      rw [List.getElem?_map, List.getElem?_map]
      by_cases hieq : idx = n
      · subst hieq
        rw [List.getElem?_set_self hidx_lt, hdat]
        rfl
      · rw [List.getElem?_set_ne hieq]
    rw [hmapeq]
    exact hwf.ids_nodup
  · intro i
    rw [List.Nodup.mem_erase_iff hwf.alive_nodup]
    constructor
    · rintro ⟨hne, hmem⟩
      obtain ⟨r0, hr0, hd0⟩ := (hwf.alive_mem i).mp hmem
      refine ⟨r0, ?_, hd0⟩
      rw [List.getElem?_set_ne (Ne.symm hne)]
      exact hr0
    · rintro ⟨r0, hr0, hd0⟩
      by_cases hieq : idx = i
      · subst hieq
        rw [List.getElem?_set_self hidx_lt] at hr0
        cases hr0
        cases hd0
      · rw [List.getElem?_set_ne hieq] at hr0
        exact ⟨fun hh => hieq hh.symm, (hwf.alive_mem i).mpr ⟨r0, hr0, hd0⟩⟩
  · exact hwf.alive_nodup.erase idx
  · intro f fi' hfi' m' hm' v j
    rw [alookup_imRemove, Option.map_eq_some'] at hfi'
    obtain ⟨fi, hfi, rfl⟩ := hfi'
    have hex : (fiRemove fi r.data r.id).exact =
        fi.exact.map (fun m => bRemove m (fi.extractor r.data) r.id) := rfl
    rw [hex, Option.map_eq_some'] at hm'
    obtain ⟨m, hm, rfl⟩ := hm'
    have hextr : (fiRemove fi r.data r.id).extractor = fi.extractor := rfl
    rw [mem_getB_bRemove, hwf.exact_inv f fi hfi m hm v j, hextr,
      holdsRec_set_remove s.data idx r r' hdat hwf.ids_nodup rfl rfl j _]
    constructor
    · rintro ⟨h1, h2⟩
      exact ⟨h1, fun hc => h2 ⟨hc.1, hc.2.symm⟩⟩
    · rintro ⟨h1, h2⟩
      exact ⟨h1, fun hc => h2 ⟨hc.1, hc.2.symm⟩⟩
  · intro f fi' hfi' t' ht'
    rw [alookup_imRemove, Option.map_eq_some'] at hfi'
    obtain ⟨fi, hfi, rfl⟩ := hfi'
    have htr : (fiRemove fi r.data r.id).trie = fi.trie.map (fun t =>
        match safeToString (fi.extractor r.data) with
        | none => t
        | some cs => trieDelete t cs r.id) := rfl
    rw [htr, Option.map_eq_some'] at ht'
    obtain ⟨t, ht, rfl⟩ := ht'
    cases hcs : safeToString (fi.extractor r.data) with
    | none =>
      simp only [hcs]
      exact hwf.trie_root f fi hfi t ht
    | some cs =>
      simp only [hcs]
      rw [ids_trieDelete]
      exact hwf.trie_root f fi hfi t ht
  · intro f fi' hfi' t' ht' p j hp
    rw [alookup_imRemove, Option.map_eq_some'] at hfi'
    obtain ⟨fi, hfi, rfl⟩ := hfi'
    have htr : (fiRemove fi r.data r.id).trie = fi.trie.map (fun t =>
        match safeToString (fi.extractor r.data) with
        | none => t
        | some cs => trieDelete t cs r.id) := rfl
    rw [htr, Option.map_eq_some'] at ht'
    obtain ⟨t, ht, rfl⟩ := ht'
    have hextr : (fiRemove fi r.data r.id).extractor = fi.extractor := rfl
    rw [hextr,
      holdsRec_set_remove s.data idx r r' hdat hwf.ids_nodup rfl rfl j _]
    cases hcs : safeToString (fi.extractor r.data) with
    | none =>
      simp only [hcs]
      rw [hwf.trie_inv f fi hfi t ht p j hp]
      constructor
      · intro h1
        refine ⟨h1, ?_⟩
        rintro ⟨-, cs, hsome, -⟩
        cases hsome
      · exact fun hh => hh.1
    | some cs =>
      simp only [hcs]
      rw [mem_idsAt_trieDelete, hwf.trie_inv f fi hfi t ht p j hp]
      constructor
      · rintro ⟨h1, h2⟩
        refine ⟨h1, ?_⟩
        rintro ⟨ha, cs', hsome, hpre⟩
        cases hsome
        exact h2 ⟨ha, hp, hpre⟩
      · rintro ⟨h1, h2⟩
        refine ⟨h1, ?_⟩
        rintro ⟨ha, -, hpre⟩
        exact h2 ⟨ha, cs, rfl, hpre⟩
  · intro f fi' hfi' m' hm' w j
    rw [alookup_imRemove, Option.map_eq_some'] at hfi'
    obtain ⟨fi, hfi, rfl⟩ := hfi'
    have hinv : (fiRemove fi r.data r.id).inverted = fi.inverted.map (fun m =>
        match safeToString (fi.extractor r.data) with
        | none => m
        | some cs => (windows cs).foldl (fun m' w' => bRemove m' w' r.id) m) := rfl
    rw [hinv, Option.map_eq_some'] at hm'
    obtain ⟨m, hm, rfl⟩ := hm'
    have hextr : (fiRemove fi r.data r.id).extractor = fi.extractor := rfl
    rw [hextr,
      holdsRec_set_remove s.data idx r r' hdat hwf.ids_nodup rfl rfl j _]
    cases hcs : safeToString (fi.extractor r.data) with
    | none =>
      simp only [hcs]
      rw [hwf.inverted_inv f fi hfi m hm w j]
      constructor
      · intro h1
        refine ⟨h1, ?_⟩
        rintro ⟨-, cs, hsome, -⟩
        cases hsome
      · exact fun hh => hh.1
    | some cs =>
      simp only [hcs]
      rw [mem_getB_foldRemove, hwf.inverted_inv f fi hfi m hm w j]
      constructor
      · rintro ⟨h1, h2⟩
        refine ⟨h1, ?_⟩
        rintro ⟨ha, cs', hsome, hw⟩
        cases hsome
        exact h2 ⟨ha, hw⟩
      · rintro ⟨h1, h2⟩
        refine ⟨h1, ?_⟩
        rintro ⟨ha, hw⟩
        exact h2 ⟨ha, cs, rfl, hw⟩

/-! ### Well-formedness preservation: update -/

theorem exists_some_eq {α : Type} (x : α) (P : α → Prop) :
    (∃ y, some x = some y ∧ P y) ↔ P x := by
  constructor
  · rintro ⟨y, hy, hp⟩
    cases hy
    exact hp
  · intro hp
    exact ⟨x, rfl, hp⟩

theorem exists_none_eq {α : Type} (P : α → Prop) :
    (∃ y, (none : Option α) = some y ∧ P y) ↔ False := by
  constructor
  · rintro ⟨y, hy, -⟩
    cases hy
  · exact False.elim

theorem storeUpdate_ok (s : Store) (id : Nat) (d : Value) (now : Int)
    (x : Record × Store) (h : storeUpdate s id d now = .ok x) :
    ∃ idx r, s.idMapIndex id = some idx ∧ s.data[idx]? = some r ∧ r.deleted = false ∧
      x = (⟨{ r with
              data := d
              updatedAt := now
              version := if s.enableVersioning then r.version + 1 else r.version },
            { s with
              data := s.data.set idx { r with
                data := d
                updatedAt := now
                version := if s.enableVersioning then r.version + 1 else r.version }
              im := imUpdate s.im r.data d r.id }⟩ : Record × Store) := by
  unfold storeUpdate at h
  split at h
  · exact Except.noConfusion h
  · rename_i idx hmap
    split at h
    · exact Except.noConfusion h
    · rename_i r hdat
      split at h
      · exact Except.noConfusion h
      · rename_i hdel
        cases h
        exact ⟨idx, r, hmap, hdat, Bool.eq_false_iff.mpr hdel, rfl⟩

theorem wf_update (s : Store) (id : Nat) (d : Value) (now : Int)
    (x : Record × Store) (h : storeUpdate s id d now = .ok x) (hwf : WF s) : WF x.2 := by
  obtain ⟨idx, r, hmap, hdat, hdel, rfl⟩ := storeUpdate_ok s id d now x h
  set r' : Record := { r with
    data := d
    updatedAt := now
    version := if s.enableVersioning then r.version + 1 else r.version } with hr'def
  have hidx_lt : idx < s.data.length := (List.getElem?_eq_some_iff.mp hdat).1
  have hrid_map : s.idMapIndex r.id = some idx := hwf.idMap_complete idx r hdat
  have hlive' : r'.deleted = false := hdel
  have hr'data : r'.data = d := rfl
  have hr'id : r'.id = r.id := rfl
  constructor
  · intro i0 i h0
    obtain ⟨r0, hr0, hr0id⟩ := hwf.idMap_sound i0 i h0
    by_cases hieq : idx = i
    · subst hieq
      rw [hdat] at hr0
      cases hr0
      refine ⟨r', ?_, hr0id⟩
      rw [List.getElem?_set_self hidx_lt]
    · refine ⟨r0, ?_, hr0id⟩
      rw [List.getElem?_set_ne hieq]
      exact hr0
  · intro i r0 h0
    by_cases hieq : idx = i
    · subst hieq
      rw [List.getElem?_set_self hidx_lt] at h0
      cases h0
      exact hrid_map
    · rw [List.getElem?_set_ne hieq] at h0
      exact hwf.idMap_complete i r0 h0
  · intro r0 hr0
    obtain ⟨i, hi⟩ := List.mem_iff_getElem?.mp hr0
    by_cases hieq : idx = i
    · subst hieq
      rw [List.getElem?_set_self hidx_lt] at hi
      cases hi
      exact hwf.ids_bound r (List.mem_iff_getElem?.mpr ⟨idx, hdat⟩)
    · rw [List.getElem?_set_ne hieq] at hi
      exact hwf.ids_bound r0 (List.mem_iff_getElem?.mpr ⟨i, hi⟩)
  · have hmapeq : (s.data.set idx r').map Record.id = s.data.map Record.id := by
      apply List.ext_getElem?
      intro n
      rw [List.getElem?_map, List.getElem?_map]
      by_cases hieq : idx = n
      · subst hieq
        rw [List.getElem?_set_self hidx_lt, hdat]
        rfl
      · rw [List.getElem?_set_ne hieq]
    rw [hmapeq]
    exact hwf.ids_nodup
  · intro i
    constructor
    · intro hmem
      obtain ⟨r0, hr0, hd0⟩ := (hwf.alive_mem i).mp hmem
      by_cases hieq : idx = i
      · subst hieq
        refine ⟨r', ?_, hlive'⟩
        rw [List.getElem?_set_self hidx_lt]
      · refine ⟨r0, ?_, hd0⟩
        rw [List.getElem?_set_ne hieq]
        exact hr0
    · rintro ⟨r0, hr0, hd0⟩
      by_cases hieq : idx = i
      · subst hieq
        exact (hwf.alive_mem idx).mpr ⟨r, hdat, hdel⟩
      · rw [List.getElem?_set_ne hieq] at hr0
        exact (hwf.alive_mem i).mpr ⟨r0, hr0, hd0⟩
  · exact hwf.alive_nodup
  · intro f fi' hfi' m' hm' v j
    rw [show ({ s with
        data := s.data.set idx r'
        im := imUpdate s.im r.data d r.id } : Store).im = imUpdate s.im r.data d r.id from rfl,
      imUpdate, alookup_imAdd, alookup_imRemove, Option.map_map, Option.map_eq_some'] at hfi'
    obtain ⟨fi, hfi, rfl⟩ := hfi'
    have hex : ((fun fi => fiAdd fi d r.id) ∘ fun fi => fiRemove fi r.data r.id) fi =
        fiAdd (fiRemove fi r.data r.id) d r.id := rfl
    rw [hex] at hm' ⊢
    have hex2 : (fiAdd (fiRemove fi r.data r.id) d r.id).exact =
        (fi.exact.map (fun m => bRemove m (fi.extractor r.data) r.id)).map
          (fun m => bAdd m (fi.extractor d) r.id) := rfl
    rw [hex2, Option.map_eq_some'] at hm'
    obtain ⟨u, hu, rfl⟩ := hm'
    rw [Option.map_eq_some'] at hu
    obtain ⟨m, hm, rfl⟩ := hu
    have hextr : (fiAdd (fiRemove fi r.data r.id) d r.id).extractor = fi.extractor := rfl
    rw [mem_getB_bAdd, mem_getB_bRemove, hwf.exact_inv f fi hfi m hm v j, hextr,
      holdsRec_set_update s.data idx r r' hdat hwf.ids_nodup hr'id hlive' j _, hr'data]
    constructor
    · rintro (⟨h1, h2⟩ | ⟨rfl, rfl⟩)
      · exact Or.inl ⟨h1, fun hc => h2 ⟨hc.1, hc.2.symm⟩⟩
      · exact Or.inr ⟨rfl, rfl⟩
    · rintro (⟨h1, h2⟩ | ⟨rfl, hv⟩)
      · exact Or.inl ⟨h1, fun hc => h2 ⟨hc.1, hc.2.symm⟩⟩
      · exact Or.inr ⟨rfl, hv.symm⟩
  · intro f fi' hfi' t' ht'
    rw [show ({ s with
        data := s.data.set idx r'
        im := imUpdate s.im r.data d r.id } : Store).im = imUpdate s.im r.data d r.id from rfl,
      imUpdate, alookup_imAdd, alookup_imRemove, Option.map_map, Option.map_eq_some'] at hfi'
    obtain ⟨fi, hfi, rfl⟩ := hfi'
    have hex : ((fun fi => fiAdd fi d r.id) ∘ fun fi => fiRemove fi r.data r.id) fi =
        fiAdd (fiRemove fi r.data r.id) d r.id := rfl
    rw [hex] at ht'
    have htr : (fiAdd (fiRemove fi r.data r.id) d r.id).trie =
        (fi.trie.map (fun t =>
          match safeToString (fi.extractor r.data) with
          | none => t
          | some cs => trieDelete t cs r.id)).map (fun t =>
          match safeToString (fi.extractor d) with
          | none => t
          | some cs' => trieInsert t cs' r.id) := rfl
    rw [htr, Option.map_eq_some'] at ht'
    obtain ⟨u, hu, rfl⟩ := ht'
    rw [Option.map_eq_some'] at hu
    obtain ⟨t, ht, rfl⟩ := hu
    have hroot := hwf.trie_root f fi hfi t ht
    cases hcs2 : safeToString (fi.extractor d) <;> cases hcs1 : safeToString (fi.extractor r.data) <;>
      simp only [hcs1, hcs2] <;>
      simp only [ids_trieInsert, ids_trieDelete, hroot]
  · intro f fi' hfi' t' ht' p j hp
    rw [show ({ s with
        data := s.data.set idx r'
        im := imUpdate s.im r.data d r.id } : Store).im = imUpdate s.im r.data d r.id from rfl,
      imUpdate, alookup_imAdd, alookup_imRemove, Option.map_map, Option.map_eq_some'] at hfi'
    obtain ⟨fi, hfi, rfl⟩ := hfi'
    have hex : ((fun fi => fiAdd fi d r.id) ∘ fun fi => fiRemove fi r.data r.id) fi =
        fiAdd (fiRemove fi r.data r.id) d r.id := rfl
    rw [hex] at ht' ⊢
    have htr : (fiAdd (fiRemove fi r.data r.id) d r.id).trie =
        (fi.trie.map (fun t =>
          match safeToString (fi.extractor r.data) with
          | none => t
          | some cs => trieDelete t cs r.id)).map (fun t =>
          match safeToString (fi.extractor d) with
          | none => t
          | some cs' => trieInsert t cs' r.id) := rfl
    rw [htr, Option.map_eq_some'] at ht'
    obtain ⟨u, hu, rfl⟩ := ht'
    rw [Option.map_eq_some'] at hu
    obtain ⟨t, ht, rfl⟩ := hu
    have hextr : (fiAdd (fiRemove fi r.data r.id) d r.id).extractor = fi.extractor := rfl
    rw [hextr,
      holdsRec_set_update s.data idx r r' hdat hwf.ids_nodup hr'id hlive' j _, hr'data]
    cases hcs2 : safeToString (fi.extractor d) with
    | none =>
      cases hcs1 : safeToString (fi.extractor r.data) with
      | none =>
        simp only [hcs1, hcs2, exists_none_eq, and_false, not_false_iff, and_true]
        rw [hwf.trie_inv f fi hfi t ht p j hp]
        tauto
      | some cs =>
        simp only [hcs1, hcs2, exists_none_eq, exists_some_eq, and_false]
        rw [mem_idsAt_trieDelete, hwf.trie_inv f fi hfi t ht p j hp]
        constructor
        · rintro ⟨h1, h2⟩
          exact Or.inl ⟨h1, fun hc => h2 ⟨hc.1, hp, hc.2⟩⟩
        · rintro (⟨h1, h2⟩ | hc)
          · exact ⟨h1, fun hc => h2 ⟨hc.1, hc.2.2⟩⟩
          · exact hc.elim
    | some cs' =>
      cases hcs1 : safeToString (fi.extractor r.data) with
      | none =>
        simp only [hcs1, hcs2, exists_none_eq, exists_some_eq, and_false, not_false_iff, and_true]
        rw [mem_idsAt_trieInsert, hwf.trie_inv f fi hfi t ht p j hp]
        constructor
        · rintro (h1 | ⟨rfl, -, hpre⟩)
          · exact Or.inl h1
          · exact Or.inr ⟨rfl, hpre⟩
        · rintro (h1 | ⟨rfl, hpre⟩)
          · exact Or.inl h1
          · exact Or.inr ⟨rfl, hp, hpre⟩
      | some cs =>
        simp only [hcs1, hcs2, exists_some_eq]
        rw [mem_idsAt_trieInsert, mem_idsAt_trieDelete, hwf.trie_inv f fi hfi t ht p j hp]
        constructor
        · rintro (⟨h1, h2⟩ | ⟨rfl, -, hpre⟩)
          · exact Or.inl ⟨h1, fun hc => h2 ⟨hc.1, hp, hc.2⟩⟩
          · exact Or.inr ⟨rfl, hpre⟩
        · rintro (⟨h1, h2⟩ | ⟨rfl, hpre⟩)
          · exact Or.inl ⟨h1, fun hc => h2 ⟨hc.1, hc.2.2⟩⟩
          · exact Or.inr ⟨rfl, hp, hpre⟩
  · intro f fi' hfi' m' hm' w j
    rw [show ({ s with
        data := s.data.set idx r'
        im := imUpdate s.im r.data d r.id } : Store).im = imUpdate s.im r.data d r.id from rfl,
      imUpdate, alookup_imAdd, alookup_imRemove, Option.map_map, Option.map_eq_some'] at hfi'
    obtain ⟨fi, hfi, rfl⟩ := hfi'
    have hex : ((fun fi => fiAdd fi d r.id) ∘ fun fi => fiRemove fi r.data r.id) fi =
        fiAdd (fiRemove fi r.data r.id) d r.id := rfl
    rw [hex] at hm' ⊢
    have hinv : (fiAdd (fiRemove fi r.data r.id) d r.id).inverted =
        (fi.inverted.map (fun m =>
          match safeToString (fi.extractor r.data) with
          | none => m
          | some cs => (windows cs).foldl (fun m' w' => bRemove m' w' r.id) m)).map (fun m =>
          match safeToString (fi.extractor d) with
          | none => m
          | some cs' => (windows cs').foldl (fun m' w' => bAdd m' w' r.id) m) := rfl
    rw [hinv, Option.map_eq_some'] at hm'
    obtain ⟨u, hu, rfl⟩ := hm'
    rw [Option.map_eq_some'] at hu
    obtain ⟨m, hm, rfl⟩ := hu
    have hextr : (fiAdd (fiRemove fi r.data r.id) d r.id).extractor = fi.extractor := rfl
    rw [hextr,
      holdsRec_set_update s.data idx r r' hdat hwf.ids_nodup hr'id hlive' j _, hr'data]
    cases hcs2 : safeToString (fi.extractor d) with
    | none =>
      cases hcs1 : safeToString (fi.extractor r.data) with
      | none =>
        simp only [hcs1, hcs2, exists_none_eq, and_false, not_false_iff, and_true]
        rw [hwf.inverted_inv f fi hfi m hm w j]
        tauto
      | some cs =>
        simp only [hcs1, hcs2, exists_none_eq, exists_some_eq, and_false]
        rw [mem_getB_foldRemove, hwf.inverted_inv f fi hfi m hm w j]
        constructor
        · rintro ⟨h1, h2⟩
          exact Or.inl ⟨h1, h2⟩
        · rintro (⟨h1, h2⟩ | hc)
          · exact ⟨h1, h2⟩
          · exact hc.elim
    | some cs' =>
      cases hcs1 : safeToString (fi.extractor r.data) with
      | none =>
        simp only [hcs1, hcs2, exists_none_eq, exists_some_eq, and_false, not_false_iff, and_true]
        rw [mem_getB_foldAdd, hwf.inverted_inv f fi hfi m hm w j]
      | some cs =>
        simp only [hcs1, hcs2, exists_some_eq]
        rw [mem_getB_foldAdd, mem_getB_foldRemove, hwf.inverted_inv f fi hfi m hm w j]

/-! ### Reachability gives well-formedness -/

theorem wf_applyOp (s : Store) (op : Op) (hwf : WF s) : WF (applyOp s op) := by
  cases op with
  | insertOp d now => exact wf_insert s d now hwf
  | updateOp id d now =>
    simp only [applyOp]
    cases h : storeUpdate s id d now with
    | ok x =>
      simp only
      exact wf_update s id d now x h hwf
    | error e => exact hwf
  | deleteOp id now =>
    simp only [applyOp]
    cases h : storeDelete s id now with
    | ok s' =>
      simp only
      exact wf_delete s id now s' h hwf
    | error e => exact hwf

theorem wf_applyOps (ops : List Op) : ∀ s : Store, WF s → WF (applyOps s ops) := by
  induction ops with
  | nil => exact fun s h => h
  | cons op ops ih =>
    intro s hwf
    exact ih (applyOp s op) (wf_applyOp s op hwf)

theorem reachable_wf (s : Store) (h : Reachable s) : WF s := by
  obtain ⟨v, cfgs, ops, rfl⟩ := h
  exact wf_applyOps ops _ (wf_mkStore v cfgs)

theorem reachable_applyOp (s : Store) (op : Op) (h : Reachable s) :
    Reachable (applyOp s op) := by
  obtain ⟨v, cfgs, ops, rfl⟩ := h
  refine ⟨v, cfgs, ops ++ [op], ?_⟩
  rw [applyOps, applyOps, List.foldl_append]
  rfl

/-! ### Identifier monotonicity -/

theorem idGen_applyOp_update (s : Store) (id : Nat) (d : Value) (now : Int) :
    (applyOp s (.updateOp id d now)).idGen = s.idGen := by
  simp only [applyOp]
  cases h : storeUpdate s id d now with
  | ok x =>
    obtain ⟨idx, r, -, -, -, rfl⟩ := storeUpdate_ok s id d now x h
    rfl
  | error e => rfl

theorem idGen_applyOp_delete (s : Store) (id : Nat) (now : Int) :
    (applyOp s (.deleteOp id now)).idGen = s.idGen := by
  simp only [applyOp]
  cases h : storeDelete s id now with
  | ok s' =>
    obtain ⟨idx, r, -, -, -, rfl⟩ := storeDelete_ok s id now s' h
    rfl
  | error e => rfl

theorem assignedIds_spec (ops : List Op) : ∀ s : Store,
    (∀ j ∈ assignedIds s ops, s.idGen < j) ∧ (assignedIds s ops).Pairwise (· < ·) := by
  induction ops with
  | nil => exact fun s => ⟨fun j hj => absurd hj (List.not_mem_nil j), List.Pairwise.nil⟩
  | cons op ops ih =>
    intro s
    cases op with
    | insertOp d now =>
      have hgen : (applyOp s (.insertOp d now)).idGen = s.idGen + 1 := rfl
      have hid : (storeInsert s d now).1.id = s.idGen + 1 := rfl
      obtain ⟨ih1, ih2⟩ := ih (applyOp s (.insertOp d now))
      rw [hgen] at ih1
      constructor
      · intro j hj
        rcases List.mem_cons.mp (by simpa [assignedIds] using hj) with h | h
        · rw [h, hid]
          omega
        · have := ih1 j h
          omega
      · show ((storeInsert s d now).1.id :: assignedIds _ ops).Pairwise (· < ·)
        refine List.Pairwise.cons ?_ ih2
        intro j hj
        have := ih1 j hj
        rw [hid]
        omega
    | updateOp uid d now =>
      obtain ⟨ih1, ih2⟩ := ih (applyOp s (.updateOp uid d now))
      rw [idGen_applyOp_update] at ih1
      exact ⟨ih1, ih2⟩
    | deleteOp did now =>
      obtain ⟨ih1, ih2⟩ := ih (applyOp s (.deleteOp did now))
      rw [idGen_applyOp_delete] at ih1
      exact ⟨ih1, ih2⟩

/-! ### Query-level consequences of the invariant -/

theorem no_live_of_tombstone (s : Store) (hwf : WF s) (idx : Nat) (r : Record)
    (hr : s.data[idx]? = some r) (hdel : r.deleted = true) (K : Value → Prop) :
    ¬ holdsRec s.data r.id K := by
  rintro ⟨r0, hr0, hd0, hid0, -⟩
  obtain ⟨i0, hi0⟩ := List.mem_iff_getElem?.mp hr0
  have heq : idx = i0 := id_slot_unique s.data hwf.ids_nodup idx i0 r r0 hr hi0 hid0.symm
  subst heq
  rw [hr] at hi0
  cases hi0
  rw [hdel] at hd0
  cases hd0

theorem not_mem_idsAt (s : Store) (hwf : WF s) (f : String) (fi : FieldIndex)
    (hfi : alookup s.im f = some fi) (t : TrieNode) (ht : fi.trie = some t) (j : Nat)
    (hno : ∀ K : Value → Prop, ¬ holdsRec s.data j K) (p : List Char) :
    j ∉ idsAt t p := by
  intro hmem
  by_cases hp : p = []
  · subst hp
    rw [idsAt_nil, hwf.trie_root f fi hfi t ht] at hmem
    exact List.not_mem_nil j hmem
  · exact hno _ ((hwf.trie_inv f fi hfi t ht p j hp).mp hmem)

theorem not_mem_imQueryPrefix (s : Store) (hwf : WF s) (j : Nat)
    (hno : ∀ K : Value → Prop, ¬ holdsRec s.data j K) (f : String) (p : List Char) :
    j ∉ (imQueryPrefix s.im f p).getD [] := by
  unfold imQueryPrefix
  cases hfi : alookup s.im f with
  | none => simp [hfi]
  | some fi =>
    simp only [hfi]
    cases ht : fi.trie with
    | none => simp [ht]
    | some t =>
      simp only [ht]
      intro hmem
      exact not_mem_idsAt s hwf f fi hfi t ht j hno p hmem

theorem not_mem_imQuerySubstring (s : Store) (hwf : WF s) (j : Nat)
    (hno : ∀ K : Value → Prop, ¬ holdsRec s.data j K) (f : String) (w : List Char) :
    j ∉ (imQuerySubstring s.im f w).getD [] := by
  unfold imQuerySubstring
  cases hfi : alookup s.im f with
  | none => simp [hfi]
  | some fi =>
    simp only [hfi]
    cases hm : fi.inverted with
    | none => simp [hm]
    | some m =>
      simp only [hm]
      intro hmem
      exact hno _ ((hwf.inverted_inv f fi hfi m hm w j).mp hmem)

theorem not_mem_imQueryInverted (s : Store) (hwf : WF s) (f : String) (fi : FieldIndex)
    (hfi : alookup s.im f = some fi) (j : Nat)
    (hno : ∀ K : Value → Prop, ¬ holdsRec s.data j K) (v : Value) :
    j ∉ (imQueryInverted fi v).getD [] := by
  unfold imQueryInverted
  cases hm : fi.inverted with
  | none => simp [hm]
  | some m =>
    simp only [hm]
    cases hcs : safeToString v with
    | none => simp [hcs]
    | some cs =>
      simp only [hcs]
      intro hmem
      exact hno _ ((hwf.inverted_inv f fi hfi m hm cs j).mp hmem)

theorem not_mem_imQueryTrieStep (s : Store) (hwf : WF s) (f : String) (fi : FieldIndex)
    (hfi : alookup s.im f = some fi) (j : Nat)
    (hno : ∀ K : Value → Prop, ¬ holdsRec s.data j K) (v : Value) :
    j ∉ (match fi.trie with
      | some t =>
        match safeToString v with
        | none => none
        | some cs =>
          match queryPrefix t cs with
          | some set => some set
          | none => imQueryInverted fi v
      | none => imQueryInverted fi v).getD [] := by
  cases ht : fi.trie with
  | none =>
    simp only [ht]
    exact not_mem_imQueryInverted s hwf f fi hfi j hno v
  | some t =>
    simp only [ht]
    cases hcs : safeToString v with
    | none => simp [hcs]
    | some cs =>
      simp only [hcs]
      cases hq : queryPrefix t cs with
      | some set =>
        simp only [hq]
        intro hmem
        have hmem' : j ∈ idsAt t cs := by
          rw [idsAt, hq]
          simpa using hmem
        exact not_mem_idsAt s hwf f fi hfi t ht j hno cs hmem'
      | none =>
        simp only [hq]
        exact not_mem_imQueryInverted s hwf f fi hfi j hno v

theorem not_mem_imQuery (s : Store) (hwf : WF s) (j : Nat)
    (hno : ∀ K : Value → Prop, ¬ holdsRec s.data j K) (f : String) (v : Value) :
    j ∉ (imQuery s.im f v).getD [] := by
  unfold imQuery
  cases hfi : alookup s.im f with
  | none => simp [hfi]
  | some fi =>
    simp only [hfi]
    cases hex : fi.exact with
    | none =>
      simp only [hex]
      exact not_mem_imQueryTrieStep s hwf f fi hfi j hno v
    | some m =>
      simp only [hex]
      cases hb : m v with
      | some set =>
        simp only [hb]
        intro hmem
        have hmem' : j ∈ getB m v := by
          rw [getB, hb]
          simpa using hmem
        exact hno _ ((hwf.exact_inv f fi hfi m hex v j).mp hmem')
      | none =>
        simp only [hb]
        exact not_mem_imQueryTrieStep s hwf f fi hfi j hno v

theorem mem_imQueryPrefix_of_live (s : Store) (hwf : WF s) (f : String) (fi : FieldIndex)
    (hfi : alookup s.im f = some fi) (t : TrieNode) (ht : fi.trie = some t)
    (idx : Nat) (r : Record) (hr : s.data[idx]? = some r) (hlive : r.deleted = false)
    (cs : List Char) (hcs : safeToString (fi.extractor r.data) = some cs)
    (p : List Char) (hp : p ≠ []) (hpre : p <+: cs) :
    r.id ∈ (imQueryPrefix s.im f p).getD [] := by
  have hmem : r.id ∈ idsAt t p :=
    (hwf.trie_inv f fi hfi t ht p r.id hp).mpr
      ⟨r, List.mem_iff_getElem?.mpr ⟨idx, hr⟩, hlive, rfl, cs, hcs, hpre⟩
  unfold imQueryPrefix
  simp only [hfi, ht]
  exact hmem

theorem mem_imQuerySubstring_of_live (s : Store) (hwf : WF s) (f : String) (fi : FieldIndex)
    (hfi : alookup s.im f = some fi) (m : Buckets (List Char)) (hm : fi.inverted = some m)
    (idx : Nat) (r : Record) (hr : s.data[idx]? = some r) (hlive : r.deleted = false)
    (cs : List Char) (hcs : safeToString (fi.extractor r.data) = some cs)
    (w : List Char) (hw : w ∈ windows cs) :
    r.id ∈ (imQuerySubstring s.im f w).getD [] := by
  have hmem : r.id ∈ getB m w :=
    (hwf.inverted_inv f fi hfi m hm w r.id).mpr
      ⟨r, List.mem_iff_getElem?.mpr ⟨idx, hr⟩, hlive, rfl, cs, hcs, hw⟩
  unfold imQuerySubstring
  simp only [hfi, hm]
  exact hmem

theorem mem_imQuery_exact_of_live (s : Store) (hwf : WF s) (f : String) (fi : FieldIndex)
    (hfi : alookup s.im f = some fi) (m : Buckets Value) (hm : fi.exact = some m)
    (idx : Nat) (r : Record) (hr : s.data[idx]? = some r) (hlive : r.deleted = false) :
    r.id ∈ (imQuery s.im f (fi.extractor r.data)).getD [] := by
  have hmem : r.id ∈ getB m (fi.extractor r.data) :=
    (hwf.exact_inv f fi hfi m hm _ r.id).mpr
      ⟨r, List.mem_iff_getElem?.mpr ⟨idx, hr⟩, hlive, rfl, rfl⟩
  rw [getB] at hmem
  cases hb : m (fi.extractor r.data) with
  | none => rw [hb] at hmem; simp at hmem
  | some bucket =>
    rw [hb] at hmem
    unfold imQuery
    simp only [hfi, hm, hb]
    simpa using hmem

/-! ### Inverting the List collection loop -/

theorem mem_collectRecs (data : List Record) (idxs : List Nat) (recs : List Record)
    (h : collectRecs data idxs = some recs) :
    ∀ rec ∈ recs, ∃ i ∈ idxs, data[i]? = some rec ∧ rec.deleted = false := by
  induction idxs generalizing recs with
  | nil =>
    cases h
    intro rec hrec
    exact absurd hrec (List.not_mem_nil rec)
  | cons i is ih =>
    simp only [collectRecs] at h
    cases hd : data[i]? with
    | none =>
      rw [hd] at h
      exact Option.noConfusion h
    | some r =>
      rw [hd] at h
      cases hrest : collectRecs data is with
      | none =>
        rw [hrest] at h
        exact Option.noConfusion h
      | some rest =>
        rw [hrest] at h
        simp only [] at h
        cases h
        intro rec hrec
        by_cases hdel : r.deleted = true
        · rw [if_pos hdel] at hrec
          obtain ⟨i0, hi0, hd0, hl0⟩ := ih rest hrest rec hrec
          exact ⟨i0, List.mem_cons_of_mem i hi0, hd0, hl0⟩
        · rw [if_neg hdel] at hrec
          rcases List.mem_cons.mp hrec with rfl | hrec'
          · exact ⟨i, List.mem_cons_self i is, hd, Bool.eq_false_iff.mpr hdel⟩
          · obtain ⟨i0, hi0, hd0, hl0⟩ := ih rest hrest rec hrec'
            exact ⟨i0, List.mem_cons_of_mem i hi0, hd0, hl0⟩

/-! ## Reachability of the sample stores -/

theorem sampleStore_reachable : Reachable sampleStore :=
  ⟨true, sampleCfg, [.insertOp (.vStr ['a', 'b']) 0], rfl⟩

theorem emptyStrStore_reachable : Reachable emptyStrStore :=
  ⟨true, sampleCfg, [.insertOp (.vStr []) 0], rfl⟩

/-! ## Claims -/

/-- C1, counterexample: deleting the only record of `sampleStore` succeeds,
but the subsequent `Get` fails with `ErrNotFound`, not `ErrRecordDeleted`:
`Store.Get` folds tombstoned records into the not-found branch
(`if !ok || s.data[idx].Meta.Deleted { return nil, errors.ErrNotFound }`),
so the claim's "`get(id)` fails with the RecordDeleted error" is false. -/
theorem C1_counterexample :
    storeDelete sampleStore 1 1 = .ok sampleStoreDel ∧
    storeGet sampleStoreDel 1 = .error .notFound ∧
    StoreErr.notFound ≠ StoreErr.recordDeleted :=
  ⟨rfl, rfl, by decide⟩

/-- C1 (amended): after a successful `delete(id)` on a reachable store,
`get(id)` fails with the *NotFound* error (the source does not distinguish
deleted records in `Get`); `id` is absent from every exact, prefix and
substring index bucket; `id`'s slot is gone from the liveness sequence; and
`list` never returns a record with that identifier. -/
theorem C1_tombstone_exclusion (s : Store) (h : Reachable s) (id : Nat) (now : Int)
    (s' : Store) (hdel : storeDelete s id now = .ok s') :
    storeGet s' id = .error .notFound ∧
    (∀ f fi, alookup s'.im f = some fi →
      (∀ m v, fi.exact = some m → id ∉ getB m v) ∧
      (∀ t p, fi.trie = some t → id ∉ idsAt t p) ∧
      (∀ m w, fi.inverted = some m → id ∉ getB m w)) ∧
    (∀ idx, s.idMapIndex id = some idx → idx ∉ s'.aliveIndexes) ∧
    (∀ offset limit page total, storeList s' offset limit = some (page, total) →
      ∀ rec ∈ page, rec.id ≠ id) := by
  have hwf := reachable_wf s h
  have hwf' : WF s' := wf_delete s id now s' hdel hwf
  obtain ⟨idx, r, hmap, hdat, hlive, rfl⟩ := storeDelete_ok s id now s' hdel
  have hidx_lt : idx < s.data.length := (List.getElem?_eq_some_iff.mp hdat).1
  have hrid : r.id = id := by
    obtain ⟨r0, hr0, hr0id⟩ := hwf.idMap_sound id idx hmap
    rw [hdat] at hr0
    cases hr0
    exact hr0id
  have hkey : ∀ K : Value → Prop,
      ¬ holdsRec (s.data.set idx { r with deleted := true, updatedAt := now }) id K := by
    intro K
    rw [← hrid]
    refine no_live_of_tombstone _ hwf' idx { r with deleted := true, updatedAt := now } ?_ rfl K
    show (s.data.set idx _)[idx]? = _
    rw [List.getElem?_set_self hidx_lt]
  refine ⟨?_, ?_, ?_, ?_⟩
  · simp only [storeGet, hmap, List.getElem?_set_self hidx_lt]
    rfl
  · intro f fi hfi
    refine ⟨?_, ?_, ?_⟩
    · intro m v hm hmem
      exact hkey _ ((hwf'.exact_inv f fi hfi m hm v id).mp hmem)
    · intro t p ht hmem
      exact not_mem_idsAt _ hwf' f fi hfi t ht id hkey p hmem
    · intro m w hm hmem
      exact hkey _ ((hwf'.inverted_inv f fi hfi m hm w id).mp hmem)
  · intro idx0 hmap0
    rw [hmap] at hmap0
    injection hmap0 with hii
    subst hii
    intro hmem
    exact ((List.Nodup.mem_erase_iff hwf.alive_nodup).mp hmem).1 rfl
  · intro offset limit page total hlist rec hrec hideq
    simp only [storeList] at hlist
    split at hlist
    · cases hlist
      exact absurd hrec (List.not_mem_nil rec)
    · split at hlist <;>
      · split at hlist
        · exact Option.noConfusion hlist
        · split at hlist
          · exact Option.noConfusion hlist
          · rename_i recs hcoll
            cases hlist
            obtain ⟨i, hi, hdi, hlivei⟩ := mem_collectRecs _ _ _ hcoll rec hrec
            exact hkey (fun _ => True)
              ⟨rec, List.mem_iff_getElem?.mpr ⟨i, hdi⟩, hlivei, hideq, trivial⟩

/-- C1 witness: the amended conclusion holds at the concrete one-record
store. -/
theorem C1_tombstone_exclusion_witness :
    storeGet sampleStoreDel 1 = .error .notFound ∧
    (∀ f fi, alookup sampleStoreDel.im f = some fi →
      (∀ m v, fi.exact = some m → 1 ∉ getB m v) ∧
      (∀ t p, fi.trie = some t → 1 ∉ idsAt t p) ∧
      (∀ m w, fi.inverted = some m → 1 ∉ getB m w)) ∧
    (∀ idx, sampleStore.idMapIndex 1 = some idx → idx ∉ sampleStoreDel.aliveIndexes) ∧
    (∀ offset limit page total, storeList sampleStoreDel offset limit = some (page, total) →
      ∀ rec ∈ page, rec.id ≠ 1) :=
  C1_tombstone_exclusion sampleStore sampleStore_reachable 1 1 sampleStoreDel rfl

/-- C2, counterexample: `emptyStrStore` holds the live record 1 whose
extracted value is the empty string, and the prefix mode is active on field
`"name"`; yet querying the prefix mode with the record's current (coerced)
value returns the root's identifier set, which is empty: `Trie.Insert` with
an empty key records the identifier in no node at all.  So "querying `m` with
`r`'s current value returns a set containing `r.id` iff `r` is live" fails. -/
theorem C2_counterexample :
    storeGet emptyStrStore 1 = .ok emptyStrRec ∧
    safeToString (Value.vStr []) = some [] ∧
    imQueryPrefix emptyStrStore.im "name" [] = some [] ∧
    (1 : Nat) ∉ ([] : List Nat) :=
  ⟨rfl, rfl, rfl, by decide⟩

/-- C2 (amended): on every reachable store, for every stored record and
every registered field: the exact mode contains the record's identifier iff
the record is live, unconditionally; the prefix and substring modes contain
it iff it is live *provided* the extracted value is string-coercible and
coerces to a nonempty string (an empty coerced value is indexed nowhere). -/
theorem C2_index_consistency (s : Store) (h : Reachable s) (f : String) (fi : FieldIndex)
    (hfi : alookup s.im f = some fi) (idx : Nat) (r : Record)
    (hr : s.data[idx]? = some r) :
    (∀ m, fi.exact = some m →
      (r.id ∈ (imQuery s.im f (fi.extractor r.data)).getD [] ↔ r.deleted = false)) ∧
    (∀ t cs, fi.trie = some t → safeToString (fi.extractor r.data) = some cs → cs ≠ [] →
      (r.id ∈ (imQueryPrefix s.im f cs).getD [] ↔ r.deleted = false)) ∧
    (∀ m cs, fi.inverted = some m → safeToString (fi.extractor r.data) = some cs → cs ≠ [] →
      (r.id ∈ (imQuerySubstring s.im f cs).getD [] ↔ r.deleted = false)) := by
  have hwf := reachable_wf s h
  have hno : r.deleted = true → ∀ K : Value → Prop, ¬ holdsRec s.data r.id K :=
    fun hdel K => no_live_of_tombstone s hwf idx r hr hdel K
  refine ⟨?_, ?_, ?_⟩
  · intro m hm
    constructor
    · intro hmem
      by_contra hdel
      exact not_mem_imQuery s hwf r.id (hno (Bool.ne_false_iff.mp hdel)) f
        (fi.extractor r.data) hmem
    · intro hlive
      exact mem_imQuery_exact_of_live s hwf f fi hfi m hm idx r hr hlive
  · intro t cs ht hcs hne
    constructor
    · intro hmem
      by_contra hdel
      exact not_mem_imQueryPrefix s hwf r.id (hno (Bool.ne_false_iff.mp hdel)) f cs hmem
    · intro hlive
      exact mem_imQueryPrefix_of_live s hwf f fi hfi t ht idx r hr hlive cs hcs cs hne
        (List.prefix_refl cs)
  · intro m cs hm hcs hne
    constructor
    · intro hmem
      by_contra hdel
      exact not_mem_imQuerySubstring s hwf r.id (hno (Bool.ne_false_iff.mp hdel)) f cs hmem
    · intro hlive
      refine mem_imQuerySubstring_of_live s hwf f fi hfi m hm idx r hr hlive cs hcs cs ?_
      rw [mem_windows]
      exact ⟨hne, List.infix_refl cs⟩

/-- C2 witness: the amended consistency statement at the concrete one-record
store holding `"ab"`. -/
theorem C2_index_consistency_witness :
    ∃ fi, alookup sampleStore.im "name" = some fi ∧
      ((∀ m, fi.exact = some m →
        ((1 : Nat) ∈ (imQuery sampleStore.im "name"
            (fi.extractor (Value.vStr ['a', 'b']))).getD [] ↔ (false : Bool) = false)) ∧
       (∀ t cs, fi.trie = some t →
          safeToString (fi.extractor (Value.vStr ['a', 'b'])) = some cs → cs ≠ [] →
          ((1 : Nat) ∈ (imQueryPrefix sampleStore.im "name" cs).getD [] ↔
            (false : Bool) = false)) ∧
       (∀ m cs, fi.inverted = some m →
          safeToString (fi.extractor (Value.vStr ['a', 'b'])) = some cs → cs ≠ [] →
          ((1 : Nat) ∈ (imQuerySubstring sampleStore.im "name" cs).getD [] ↔
            (false : Bool) = false))) :=
  ⟨_, rfl, C2_index_consistency sampleStore sampleStore_reachable "name" _ rfl 0
    sampleRec rfl⟩

/-- C3, counterexample: in the trie holding only the key `"ab"` for
identifier 1, deleting key `"ac"` (whose complete path does *not* exist — the
walk breaks at `'c'`) is **not** a no-op: the walk has already stripped
identifier 1 from the intermediate node `'a'`, changing an identifier set on
the existing partial path. -/
theorem C3_counterexample :
    (queryPrefix (trieInsert emptyNode ['a', 'b'] 1) ['a', 'c']).isSome = false ∧
    idsAt (trieInsert emptyNode ['a', 'b'] 1) ['a'] = [1] ∧
    idsAt (trieDelete (trieInsert emptyNode ['a', 'b'] 1) ['a', 'c'] 1) ['a'] = [] ∧
    trieDelete (trieInsert emptyNode ['a', 'b'] 1) ['a', 'c'] 1 ≠
      trieInsert emptyNode ['a', 'b'] 1 := by
  refine ⟨rfl, rfl, rfl, ?_⟩
  intro hc
  exact absurd (congrArg (fun t => idsAt t ['a']) hc)
    (by intro hx; exact List.noConfusion hx)

/-- C3 (amended): `Trie.Delete` with a key whose complete path is absent is
*not* a frame-preserving no-op: it removes the identifier from the identifier
set of every node along the longest existing prefix of the key.  Precisely,
for every path `p`, an identifier survives at `p` iff it was there before and
is not the deleted identifier at a nonempty prefix of the key; the node
structure itself never changes. -/
theorem C3_delete_partial_path (t : TrieNode) (k : List Char) (id : Nat)
    (p : List Char) (j : Nat) :
    (j ∈ idsAt (trieDelete t k id) p ↔ j ∈ idsAt t p ∧ ¬(j = id ∧ p ≠ [] ∧ p <+: k)) ∧
    (queryPrefix (trieDelete t k id) p).isSome = (queryPrefix t p).isSome :=
  ⟨mem_idsAt_trieDelete k t id j p, queryPrefix_isSome_trieDelete k t id p⟩

/-- C4, counterexample, both directions of the claimed equivalence.  First,
field `"name"` of `prefixOnlyStore` *has* a registered prefix (trie)
structure, yet a contains condition on the literal `"a"` fails with the
unsupported-index error, because the empty trie lacks the literal's path and
`QueryPrefix` then returns `nil`, which `processContainCondition` cannot
distinguish from "structure not registered" — contradicting "when at least
one of the two structures is registered, the condition resolves without
error".  Second, error and emptiness do not coincide either: in
`sampleStoreDel` (insert `"ab"`, then delete it) `Trie.Delete` leaves the
path of `"ab"` in place with an emptied identifier set, `QueryPrefix`
returns that non-`nil` empty set, and the condition resolves to the empty
result with *no* error. -/
theorem C4_counterexample :
    ((∃ fi, alookup prefixOnlyStore.im "name" = some fi ∧ fi.trie.isSome = true) ∧
      processContain prefixOnlyStore.im "name" (.vStr ['a']) =
        .error .unsupportedIndexForField) ∧
    processContain sampleStoreDel.im "name" (.vStr ['a', 'b']) = .ok [] :=
  ⟨⟨⟨_, rfl, rfl⟩, rfl⟩, rfl⟩

/-- C4 (amended): for a string-coercible literal, a contains condition fails
(always with `UnsupportedIndexForField`) iff the prefix lookup *and* the
substring lookup both return `nil` — that is, iff the prefix structure is
unregistered or its trie lacks the literal's complete character path, and
the substring structure is unregistered or its inverted map has no bucket
for the literal.  `nil` does not mean "no matching identifiers": a trie path
that survives with an emptied identifier set (as after insert-then-delete;
`Trie.Delete` never prunes nodes) is non-`nil`, so the condition then
resolves, without error, to a possibly *empty* set; conversely a registered
but pathless trie yields `nil` and can make the condition error.  When
either lookup is non-`nil`, the condition resolves to that set (prefix
preferred). -/
theorem C4_contain_resolution (im : IndexManager) (field : String) (v : Value)
    (cs : List Char) (hcs : safeToString v = some cs) :
    (processContain im field v = .error .unsupportedIndexForField ↔
      imQueryPrefix im field cs = none ∧ imQuerySubstring im field cs = none) ∧
    (imQueryPrefix im field cs = none ↔
      ∀ fi, alookup im field = some fi → ∀ t, fi.trie = some t →
        queryPrefix t cs = none) ∧
    (imQuerySubstring im field cs = none ↔
      ∀ fi, alookup im field = some fi → ∀ m, fi.inverted = some m → m cs = none) ∧
    (∀ e, processContain im field v = .error e → e = .unsupportedIndexForField) ∧
    (∀ result, processContain im field v = .ok result →
      imQueryPrefix im field cs = some result ∨
        (imQueryPrefix im field cs = none ∧ imQuerySubstring im field cs = some result)) := by
  refine ⟨?_, ?_, ?_, ?_, ?_⟩
  · unfold processContain
    rw [hcs]
    cases hq1 : imQueryPrefix im field cs with
    | some result => simp [hq1]
    | none =>
      simp only [hq1]
      cases hq2 : imQuerySubstring im field cs with
      | some result => simp [hq2]
      | none => simp [hq2]
  · unfold imQueryPrefix
    cases hfi : alookup im field with
    | none =>
      constructor
      · intro _ fi hfi'
        exact Option.noConfusion hfi'
      · intro _
        rfl
    | some fi =>
      cases ht : fi.trie with
      | none =>
        constructor
        · intro _ fi' hfi' t ht'
          injection hfi' with hfe
          subst hfe
          rw [ht] at ht'
          exact Option.noConfusion ht'
        · intro _
          show (match fi.trie with
            | some t => queryPrefix t cs
            | none => none) = none
          rw [ht]
      | some t =>
        constructor
        · intro hq fi' hfi' t' ht'
          injection hfi' with hfe
          subst hfe
          rw [ht] at ht'
          injection ht' with hte
          subst hte
          have hq' : (match fi.trie with
            | some t => queryPrefix t cs
            | none => none) = none := hq
          rw [ht] at hq'
          exact hq'
        · intro hq
          show (match fi.trie with
            | some t => queryPrefix t cs
            | none => none) = none
          rw [ht]
          exact hq fi rfl t ht
  · unfold imQuerySubstring
    cases hfi : alookup im field with
    | none =>
      constructor
      · intro _ fi hfi'
        exact Option.noConfusion hfi'
      · intro _
        rfl
    | some fi =>
      cases hm : fi.inverted with
      | none =>
        constructor
        · intro _ fi' hfi' m hm'
          injection hfi' with hfe
          subst hfe
          rw [hm] at hm'
          exact Option.noConfusion hm'
        · intro _
          show (match fi.inverted with
            | some m => m cs
            | none => none) = none
          rw [hm]
      | some m =>
        constructor
        · intro hq fi' hfi' m' hm'
          injection hfi' with hfe
          subst hfe
          rw [hm] at hm'
          injection hm' with hme
          subst hme
          have hq' : (match fi.inverted with
            | some m => m cs
            | none => none) = none := hq
          rw [hm] at hq'
          exact hq'
        · intro hq
          show (match fi.inverted with
            | some m => m cs
            | none => none) = none
          rw [hm]
          exact hq fi rfl m hm
  · intro e he
    simp only [processContain, hcs] at he
    cases hq1 : imQueryPrefix im field cs with
    | some result => rw [hq1] at he; exact Except.noConfusion he
    | none =>
      rw [hq1] at he
      cases hq2 : imQuerySubstring im field cs with
      | some result => rw [hq2] at he; exact Except.noConfusion he
      | none =>
        rw [hq2] at he
        injection he with he'
        exact he'.symm
  · intro result hres
    simp only [processContain, hcs] at hres
    cases hq1 : imQueryPrefix im field cs with
    | some res =>
      rw [hq1] at hres
      injection hres with hre
      subst hre
      exact Or.inl rfl
    | none =>
      rw [hq1] at hres
      cases hq2 : imQuerySubstring im field cs with
      | some res =>
        rw [hq2] at hres
        injection hres with hre
        subst hre
        exact Or.inr ⟨rfl, rfl⟩
      | none =>
        rw [hq2] at hres
        exact Except.noConfusion hres

/-- C4 witness: the amended characterization at the prefix-only store and
the literal `"a"`. -/
theorem C4_contain_resolution_witness :
    (processContain prefixOnlyStore.im "name" (.vStr ['a']) =
        .error .unsupportedIndexForField ↔
      imQueryPrefix prefixOnlyStore.im "name" ['a'] = none ∧
      imQuerySubstring prefixOnlyStore.im "name" ['a'] = none) ∧
    (imQueryPrefix prefixOnlyStore.im "name" ['a'] = none ↔
      ∀ fi, alookup prefixOnlyStore.im "name" = some fi → ∀ t, fi.trie = some t →
        queryPrefix t ['a'] = none) ∧
    (imQuerySubstring prefixOnlyStore.im "name" ['a'] = none ↔
      ∀ fi, alookup prefixOnlyStore.im "name" = some fi → ∀ m, fi.inverted = some m →
        m ['a'] = none) ∧
    (∀ e, processContain prefixOnlyStore.im "name" (.vStr ['a']) = .error e →
      e = .unsupportedIndexForField) ∧
    (∀ result, processContain prefixOnlyStore.im "name" (.vStr ['a']) = .ok result →
      imQueryPrefix prefixOnlyStore.im "name" ['a'] = some result ∨
        (imQueryPrefix prefixOnlyStore.im "name" ['a'] = none ∧
          imQuerySubstring prefixOnlyStore.im "name" ['a'] = some result)) :=
  C4_contain_resolution prefixOnlyStore.im "name" (.vStr ['a']) ['a'] rfl

/-- C5: immediately after `AddIndexByRecord` on any index manager where the
field's prefix and substring structures are both active and the extracted
value coerces to `cs`: every nonempty prefix query returns a set containing
the record's identifier and every nonempty contiguous substring query does.
("Valid prefix" and "contiguous substring" are read as nonempty — the loops
of the source enumerate exactly the nonempty windows, and an empty prefix
query addresses only the untouched root.) -/
theorem C5_prefix_substring_membership (im : IndexManager) (f : String) (fi : FieldIndex)
    (hfi : alookup im f = some fi) (t : TrieNode) (ht : fi.trie = some t)
    (m : Buckets (List Char)) (hm : fi.inverted = some m)
    (d : Value) (id : Nat) (cs : List Char)
    (hcs : safeToString (fi.extractor d) = some cs) :
    (∀ p, p ≠ [] → p <+: cs → id ∈ (imQueryPrefix (imAdd im d id) f p).getD []) ∧
    (∀ w, w ≠ [] → w <:+: cs → id ∈ (imQuerySubstring (imAdd im d id) f w).getD []) := by
  constructor
  · intro p hp hpre
    have htr : (fiAdd fi d id).trie = some (trieInsert t cs id) := by
      simp only [fiAdd, ht, Option.map_some', hcs]
    unfold imQueryPrefix
    simp only [alookup_imAdd, hfi, Option.map_some', htr]
    exact (mem_idsAt_trieInsert cs t id id p).mpr (Or.inr ⟨rfl, hp, hpre⟩)
  · intro w hw hinf
    have hinvt : (fiAdd fi d id).inverted =
        some ((windows cs).foldl (fun m' w' => bAdd m' w' id) m) := by
      simp only [fiAdd, hm, Option.map_some', hcs]
    unfold imQuerySubstring
    simp only [alookup_imAdd, hfi, Option.map_some', hinvt]
    exact (mem_getB_foldAdd (windows cs) m id id w).mpr
      (Or.inr ⟨rfl, (mem_windows cs w).mpr ⟨hw, hinf⟩⟩)

/-- C5 witness: indexing the value `"ab"` under identifier 7 in the sample
configuration. -/
theorem C5_prefix_substring_membership_witness :
    (∀ p, p ≠ [] → p <+: ['a', 'b'] →
      (7 : Nat) ∈ (imQueryPrefix (imAdd (mkStore true sampleCfg).im
        (.vStr ['a', 'b']) 7) "name" p).getD []) ∧
    (∀ w, w ≠ [] → w <:+: ['a', 'b'] →
      (7 : Nat) ∈ (imQuerySubstring (imAdd (mkStore true sampleCfg).im
        (.vStr ['a', 'b']) 7) "name" w).getD []) :=
  C5_prefix_substring_membership (mkStore true sampleCfg).im "name" _ rfl
    emptyNode rfl bEmpty rfl (.vStr ['a', 'b']) 7 ['a', 'b'] rfl

/-- C7: `applyPagination` fails with the invalid-input error on a negative
offset, fails with it on a non-positive limit, and otherwise returns exactly
the clamped slice `[offset, offset+limit)` of the result list (an empty page
when the offset is at or past the end).  The Go code copies the slice into a
fresh backing array; in this pure model the returned list is by construction
a fresh value, so the aliasing aspect has no separate content. -/
theorem C7_pagination (results : List Record) (offset limit : Int) :
    (offset < 0 → applyPagination results offset limit = .error .invalidInput) ∧
    (0 ≤ offset → limit ≤ 0 → applyPagination results offset limit = .error .invalidInput) ∧
    (0 ≤ offset → 0 < limit →
      applyPagination results offset limit =
        .ok ((results.drop offset.toNat).take limit.toNat)) := by
  refine ⟨?_, ?_, ?_⟩
  · intro h
    unfold applyPagination
    rw [if_pos h]
  · intro hoff hlim
    unfold applyPagination
    rw [if_neg (not_lt.mpr hoff), if_pos hlim]
  · intro hoff hlim
    unfold applyPagination
    rw [if_neg (not_lt.mpr hoff), if_neg (not_le.mpr hlim)]
    by_cases hlen : offset ≥ (results.length : Int)
    · rw [if_pos hlen]
      have hdrop : results.drop offset.toNat = [] := by
        apply List.drop_eq_nil_of_le
        omega
      rw [hdrop, List.take_nil]
    · rw [if_neg hlen]

/-- C7 witness: the three pagination behaviors at a one-record list. -/
theorem C7_pagination_witness :
    applyPagination [sampleRec] (-1) 5 = .error .invalidInput ∧
    applyPagination [sampleRec] 0 0 = .error .invalidInput ∧
    applyPagination [sampleRec] 0 5 =
      .ok (([sampleRec].drop (-1 + 1 : Int).toNat).take (5 : Int).toNat) :=
  ⟨(C7_pagination [sampleRec] (-1) 5).1 (by decide),
   (C7_pagination [sampleRec] 0 0).2.1 (by decide) (by decide),
   (C7_pagination [sampleRec] 0 5).2.2 (by decide) (by decide)⟩

theorem collectRecs_eq_of_live (data : List Record) :
    ∀ idxs : List Nat, (∀ i ∈ idxs, ∃ r, data[i]? = some r ∧ r.deleted = false) →
    ∃ recs, collectRecs data idxs = some recs ∧ recs.length = idxs.length ∧
      recs.map some = idxs.map (fun i => data[i]?) ∧
      ∀ r ∈ recs, r.deleted = false ∧ r ∈ data := by
  intro idxs
  induction idxs with
  | nil =>
    intro _
    exact ⟨[], rfl, rfl, rfl, fun r hr => absurd hr (List.not_mem_nil r)⟩
  | cons i is ih =>
    intro h
    obtain ⟨r, hr, hd⟩ := h i (List.mem_cons_self i is)
    obtain ⟨recs, hrecs, hlen, hmap, hall⟩ :=
      ih (fun j hj => h j (List.mem_cons_of_mem i hj))
    refine ⟨r :: recs, ?_, ?_, ?_, ?_⟩
    · simp only [collectRecs, hr, hrecs, hd, Bool.false_eq_true, if_false]
    · simp [hlen]
    · simp only [List.map_cons, hmap, hr]
    · intro r' hr'
      rcases List.mem_cons.mp hr' with h' | h'
      · subst h'
        obtain ⟨hlt, hget⟩ := List.getElem?_eq_some_iff.mp hr
        exact ⟨hd, hget ▸ List.getElem_mem hlt⟩
      · exact hall r' h'

theorem storeList_neg_offset (s : Store) (offset limit : Int) (h : offset < 0) :
    storeList s offset limit = none := by
  have h1 : ¬(offset ≥ (s.aliveIndexes.length : Int)) := by
    simp only [ge_iff_le, not_le]
    exact lt_of_lt_of_le h (by positivity)
  simp only [storeList]
  rw [if_neg h1, if_pos (Or.inl h)]

theorem storeList_neg_limit (s : Store) (offset limit : Int) (h0 : 0 ≤ offset)
    (h1 : limit < 0) (h2 : offset < (s.aliveIndexes.length : Int)) :
    storeList s offset limit = none := by
  simp only [storeList]
  rw [if_neg (not_le.mpr h2)]
  have hcl : ¬(offset + limit > (s.aliveIndexes.length : Int)) := by omega
  rw [if_neg hcl, if_pos (Or.inr (by omega))]

theorem storeList_overflow (s : Store) (offset limit : Int)
    (h : (s.aliveIndexes.length : Int) ≤ offset) :
    storeList s offset limit = some ([], s.aliveIndexes.length) := by
  simp only [storeList]
  rw [if_pos h]

theorem storeList_main (s : Store) (hwf : WF s) (offset limit : Int)
    (h0 : 0 ≤ offset) (h1 : 0 ≤ limit) (h2 : offset < (s.aliveIndexes.length : Int)) :
    ∃ recs, storeList s offset limit = some (recs, s.aliveIndexes.length) ∧
      recs.length = min (s.aliveIndexes.length - offset.toNat) limit.toNat ∧
      recs.map some = ((s.aliveIndexes.drop offset.toNat).take limit.toNat).map
        (fun i => s.data[i]?) ∧
      ∀ r ∈ recs, r.deleted = false ∧ r ∈ s.data := by
  simp only [storeList]
  rw [if_neg (not_le.mpr h2)]
  by_cases hcl : offset + limit > (s.aliveIndexes.length : Int)
  · rw [if_pos hcl, if_neg (show ¬(offset < 0 ∨ ((s.aliveIndexes.length : Int)) < offset)
      by omega)]
    obtain ⟨recs, hrecs, hlen, hmap, hall⟩ := collectRecs_eq_of_live s.data
      ((s.aliveIndexes.drop offset.toNat).take
        (((s.aliveIndexes.length : Int) - offset).toNat))
      (fun i hi => (hwf.alive_mem i).mp
        (List.mem_of_mem_drop (List.mem_of_mem_take hi)))
    refine ⟨recs, ?_, ?_, ?_, hall⟩
    · rw [hrecs]
    · rw [hlen, List.length_take, List.length_drop]
      omega
    · rw [hmap]
      congr 1
      rw [List.take_of_length_le (by rw [List.length_drop]; omega),
        List.take_of_length_le (by rw [List.length_drop]; omega)]
  · rw [if_neg hcl, if_neg (show ¬(offset < 0 ∨ offset + limit < offset) by omega)]
    obtain ⟨recs, hrecs, hlen, hmap, hall⟩ := collectRecs_eq_of_live s.data
      ((s.aliveIndexes.drop offset.toNat).take ((offset + limit - offset).toNat))
      (fun i hi => (hwf.alive_mem i).mp
        (List.mem_of_mem_drop (List.mem_of_mem_take hi)))
    refine ⟨recs, ?_, ?_, ?_, hall⟩
    · rw [hrecs]
    · rw [hlen, List.length_take, List.length_drop]
      omega
    · rw [hmap]
      congr 2
      omega

/-- C8, counterexample: `Store.List` never validates its bounds.  A negative
offset slips past the `offset >= total` early return and the slice expression
`s.aliveIndexes[offset:end]` panics; a negative limit makes `end < offset`
and both `make(…, end-offset)` and the slice panic.  The claim's "for all
offset and limit values … clamped to bounds" promise fails on the sample
one-record store. -/
theorem C8_counterexample :
    storeList sampleStore (-1) 1 = none ∧ storeList sampleStore 0 (-1) = none :=
  ⟨rfl, rfl⟩

/-- C8 (amended): on every reachable store, for a *non-negative* offset and
limit, `Store.List` returns exactly the records sitting at the slice
`[offset, offset+limit)` of the liveness sequence (clamped above to the live
count), in sequence order, together with that count: the page, lifted
elementwise by `some`, equals the slot reads `s.data[i]?` over that exact
window of `s.aliveIndexes`, so its length is `min(total - offset, limit)`
and every entry is a live record.  `offset ≥ total` yields an empty page
with the correct total (not an error).  A negative offset, or a negative
limit with the offset in range, instead panics (`none`): the claim's
unconditional "for all offset and limit values" reading is false. -/
theorem C8_list_pagination (s : Store) (hs : Reachable s) (offset limit : Int) :
    (offset < 0 → storeList s offset limit = none) ∧
    (0 ≤ offset → limit < 0 → offset < (s.aliveIndexes.length : Int) →
      storeList s offset limit = none) ∧
    ((s.aliveIndexes.length : Int) ≤ offset →
      storeList s offset limit = some ([], s.aliveIndexes.length)) ∧
    (0 ≤ offset → 0 ≤ limit → offset < (s.aliveIndexes.length : Int) →
      ∃ recs, storeList s offset limit = some (recs, s.aliveIndexes.length) ∧
        recs.length = min (s.aliveIndexes.length - offset.toNat) limit.toNat ∧
        recs.map some = ((s.aliveIndexes.drop offset.toNat).take limit.toNat).map
          (fun i => s.data[i]?) ∧
        ∀ r ∈ recs, r.deleted = false ∧ r ∈ s.data) :=
  ⟨storeList_neg_offset s offset limit,
   fun h0 h1 h2 => storeList_neg_limit s offset limit h0 h1 h2,
   storeList_overflow s offset limit,
   fun h0 h1 h2 => storeList_main s (reachable_wf s hs) offset limit h0 h1 h2⟩

/-- C8 witness: the amended list behavior at the reachable one-record sample
store with offset 0 and limit 5. -/
theorem C8_list_pagination_witness :
    (((0 : Int) < 0 → storeList sampleStore 0 5 = none) ∧
    ((0 : Int) ≤ 0 → (5 : Int) < 0 → (0 : Int) < (sampleStore.aliveIndexes.length : Int) →
      storeList sampleStore 0 5 = none) ∧
    ((sampleStore.aliveIndexes.length : Int) ≤ 0 →
      storeList sampleStore 0 5 = some ([], sampleStore.aliveIndexes.length)) ∧
    ((0 : Int) ≤ 0 → (0 : Int) ≤ 5 → (0 : Int) < (sampleStore.aliveIndexes.length : Int) →
      ∃ recs, storeList sampleStore 0 5 = some (recs, sampleStore.aliveIndexes.length) ∧
        recs.length = min (sampleStore.aliveIndexes.length - (0 : Int).toNat) (5 : Int).toNat ∧
        recs.map some =
          ((sampleStore.aliveIndexes.drop (0 : Int).toNat).take (5 : Int).toNat).map
            (fun i => sampleStore.data[i]?) ∧
        ∀ r ∈ recs, r.deleted = false ∧ r ∈ sampleStore.data)) :=
  C8_list_pagination sampleStore sampleStore_reachable 0 5

/-- C9: along any finite sequence of insert/update/delete operations from a
fresh store, the identifiers handed out by insert are strictly increasing in
chronological order and never reused — deletes interleaved between the
inserts never make the counter step back, because `idGen.Add(1)` only grows.
(Identifiers are modelled as unbounded naturals: the `atomic.Uint64` counter
cannot be driven through 2^64 increments by an in-memory store.) -/
theorem C9_identifier_monotonic (versioning : Bool)
    (cfgs : List (String × (Value → Value) × List IndexType)) (ops : List Op) :
    (assignedIds (mkStore versioning cfgs) ops).Pairwise (· < ·) ∧
    (assignedIds (mkStore versioning cfgs) ops).Nodup :=
  have h := (assignedIds_spec ops (mkStore versioning cfgs)).2
  ⟨h, h.imp fun hlt => ne_of_lt hlt⟩

/-- C10: a query whose accumulated condition list is empty resolves to the
empty matched-identifier set (`resolveConditions` starts from the first
condition of a nonexistent list and intersects nothing), so execution with
valid pagination bounds returns an empty record list — not the set of all
live records — and no identifier is ever resolved through `Store.Get`. -/
theorem C10_empty_conditions (s : Store) (offset limit : Int)
    (hoff : 0 ≤ offset) (hlim : 0 < limit) :
    resolveConds s.im s.data [] = .ok [] ∧
    executeQuery s [] offset limit = .ok ([] : List Record) := by
  refine ⟨rfl, ?_⟩
  show applyPagination [] offset limit = .ok []
  unfold applyPagination
  rw [if_neg (not_lt.mpr hoff), if_neg (not_le.mpr hlim), if_pos (by simpa using hoff)]

/-- C10 witness: the empty query on the sample store with offset 0, limit 5. -/
theorem C10_empty_conditions_witness :
    resolveConds sampleStore.im sampleStore.data [] = .ok [] ∧
    executeQuery sampleStore [] 0 5 = .ok ([] : List Record) :=
  C10_empty_conditions sampleStore 0 5 (by decide) (by decide)

end EasyDB
